import Mathlib

/-
Verification of the automata library (automata/dfa.py, automata/nfa.py,
automata/fa/dfa.py): the automaton data model, structural validation,
input acceptance simulation, epsilon closure and NFA→DFA subset
construction are embedded shallowly and their specified properties are
settled.  Python sets and dicts are modelled as lists in iteration
(insertion) order; runtime state sets are modelled as `Finset String`.
-/

namespace Automata

deriving instance DecidableEq for Except

/-! ### String ordering

Python compares strings lexicographically by unicode code points; this
computable order embeds that comparison (the built-in `sorted` of
DFA._stringify_states sorts by it). -/

/-- lexicographic code-point comparison of character lists (`a ≤ b`). -/
def lexLe : List Char → List Char → Bool
  | [], _ => true
  | _ :: _, [] => false
  | a :: as, b :: bs =>
    if a.toNat < b.toNat then true
    else if b.toNat < a.toNat then false
    else lexLe as bs

/-- Python's string comparison `a <= b`. -/
def strLe (a b : String) : Bool :=
  lexLe a.data b.data

theorem lexLe_total (a b : List Char) : lexLe a b = true ∨ lexLe b a = true := by
  induction a generalizing b with
  | nil => left; rfl
  | cons x as ih =>
    cases b with
    | nil => right; rfl
    | cons y bs =>
      by_cases h1 : x.toNat < y.toNat
      · left; simp [lexLe, h1]
      · by_cases h2 : y.toNat < x.toNat
        · right; simp [lexLe, h2]
        · rcases ih bs with h | h
          · left; simp [lexLe, h1, h2, h]
          · right; simp [lexLe, h1, h2, h]

theorem lexLe_antisymm (a b : List Char) (h1 : lexLe a b = true)
    (h2 : lexLe b a = true) : a = b := by
  induction a generalizing b with
  | nil =>
    cases b with
    | nil => rfl
    | cons y bs => simp [lexLe] at h2
  | cons x as ih =>
    cases b with
    | nil => simp [lexLe] at h1
    | cons y bs =>
      by_cases hxy : x.toNat < y.toNat
      · have hyx : ¬ y.toNat < x.toNat := Nat.lt_asymm hxy
        simp [lexLe, hxy, hyx] at h2
      · by_cases hyx : y.toNat < x.toNat
        · simp [lexLe, hxy, hyx] at h1
        · have hchar : x = y := by
            apply Char.eq_of_val_eq
            apply UInt32.eq_of_val_eq
            apply Fin.ext
            exact Nat.le_antisymm (Nat.le_of_not_lt hyx) (Nat.le_of_not_lt hxy)
          subst hchar
          have h1' : lexLe as bs = true := by simpa [lexLe, hxy] using h1
          have h2' : lexLe bs as = true := by simpa [lexLe, hxy] using h2
          rw [ih bs h1' h2']

theorem lexLe_trans (a b c : List Char) (h1 : lexLe a b = true)
    (h2 : lexLe b c = true) : lexLe a c = true := by
  induction a generalizing b c with
  | nil => rfl
  | cons x as ih =>
    cases b with
    | nil => simp [lexLe] at h1
    | cons y bs =>
      cases c with
      | nil => simp [lexLe] at h2
      | cons z cs =>
        by_cases hxy : x.toNat < y.toNat
        · by_cases hyz : y.toNat < z.toNat
          · simp [lexLe, Nat.lt_trans hxy hyz]
          · by_cases hzy : z.toNat < y.toNat
            · simp [lexLe, hyz, hzy] at h2
            · have heq : y.toNat = z.toNat :=
                Nat.le_antisymm (Nat.le_of_not_lt hzy) (Nat.le_of_not_lt hyz)
              simp [lexLe, heq ▸ hxy]
        · by_cases hyx : y.toNat < x.toNat
          · simp [lexLe, hxy, hyx] at h1
          · have hxyEq : x.toNat = y.toNat :=
              Nat.le_antisymm (Nat.le_of_not_lt hyx) (Nat.le_of_not_lt hxy)
            by_cases hyz : y.toNat < z.toNat
            · simp [lexLe, hxyEq ▸ hyz]
            · by_cases hzy : z.toNat < y.toNat
              · simp [lexLe, hyz, hzy] at h2
              · have h1' : lexLe as bs = true := by
                  simpa [lexLe, hxy, hyx] using h1
                have h2' : lexLe bs cs = true := by
                  simpa [lexLe, hyz, hzy] using h2
                have hxz : ¬ x.toNat < z.toNat := by rw [hxyEq]; exact hyz
                have hzx : ¬ z.toNat < x.toNat := by rw [hxyEq]; exact hzy
                simp [lexLe, hxz, hzx, ih bs cs h1' h2']

theorem strLe_total (a b : String) : strLe a b = true ∨ strLe b a = true :=
  lexLe_total a.data b.data

theorem strLe_antisymm (a b : String) (h1 : strLe a b = true)
    (h2 : strLe b a = true) : a = b := by
  have h := lexLe_antisymm a.data b.data h1 h2
  cases a
  cases b
  simp_all

theorem strLe_trans (a b c : String) (h1 : strLe a b = true)
    (h2 : strLe b c = true) : strLe a c = true :=
  lexLe_trans a.data b.data c.data h1 h2

/-- the relation of the string order, for sortedness statements. -/
def strOrd (a b : String) : Prop :=
  strLe a b = true

instance : IsAntisymm String strOrd :=
  ⟨strLe_antisymm⟩

/-- one insertion step of the sort used to embed Python's `sorted`. -/
def insertSorted (x : String) : List String → List String
  | [] => [x]
  | y :: rest => if strLe x y then x :: y :: rest else y :: insertSorted x rest

/-- Python's `sorted` on a list of strings: insertion sort by the
code-point order. -/
def sortStrings : List String → List String
  | [] => []
  | x :: rest => insertSorted x (sortStrings rest)

theorem perm_insertSorted (x : String) (l : List String) :
    List.Perm (insertSorted x l) (x :: l) := by
  induction l with
  | nil => exact List.Perm.refl _
  | cons y rest ih =>
    by_cases h : strLe x y
    · simp [insertSorted, h]
    · simp only [insertSorted, h, if_false]
      exact (ih.cons y).trans (List.Perm.swap x y rest)

theorem perm_sortStrings (l : List String) : List.Perm (sortStrings l) l := by
  induction l with
  | nil => exact List.Perm.refl _
  | cons x rest ih =>
    exact (perm_insertSorted x (sortStrings rest)).trans (ih.cons x)

theorem mem_insertSorted {a x : String} {l : List String} :
    a ∈ insertSorted x l ↔ a = x ∨ a ∈ l := by
  rw [(perm_insertSorted x l).mem_iff]
  simp

theorem sorted_insertSorted (x : String) (l : List String)
    (h : List.Sorted strOrd l) : List.Sorted strOrd (insertSorted x l) := by
  induction l with
  | nil => simp [insertSorted, List.Sorted]
  | cons y rest ih =>
    rcases List.sorted_cons.mp h with ⟨hy, hrest⟩
    by_cases hxy : strLe x y
    · simp only [insertSorted, hxy, if_true]
      refine List.sorted_cons.mpr ⟨?_, h⟩
      intro b hb
      rcases List.mem_cons.mp hb with rfl | hb
      · exact hxy
      · exact strLe_trans x y b hxy (hy b hb)
    · simp only [insertSorted, hxy, if_false]
      refine List.sorted_cons.mpr ⟨?_, ih hrest⟩
      intro b hb
      rcases mem_insertSorted.mp hb with rfl | hb
      · rcases strLe_total b y with hby | hyb
        · exact absurd hby hxy
        · exact hyb
      · exact hy b hb

theorem sorted_sortStrings (l : List String) :
    List.Sorted strOrd (sortStrings l) := by
  induction l with
  | nil => simp [sortStrings, List.Sorted]
  | cons x rest ih => exact sorted_insertSorted x (sortStrings rest) ih

theorem sortStrings_perm_invariant (a b : List String) (h : List.Perm a b) :
    sortStrings a = sortStrings b :=
  List.eq_of_perm_of_sorted
    ((perm_sortStrings a).trans (h.trans (perm_sortStrings b).symm))
    (sorted_sortStrings a) (sorted_sortStrings b)

/-- the sorted enumeration of a multiset of strings (computable: lifted
insertion sort). -/
def msSorted (m : Multiset String) : List String :=
  Quotient.liftOn m sortStrings sortStrings_perm_invariant

/-- the sorted enumeration of a finite set of strings, used to model
iteration over a Python set wherever the iteration order is observable. -/
def sortedElems (s : Finset String) : List String :=
  msSorted s.val

theorem mem_msSorted {x : String} {m : Multiset String} :
    x ∈ msSorted m ↔ x ∈ m := by
  induction m using Quotient.inductionOn with
  | _ l => simpa [msSorted] using (perm_sortStrings l).mem_iff

theorem mem_sortedElems {x : String} {s : Finset String} :
    x ∈ sortedElems s ↔ x ∈ s :=
  mem_msSorted

theorem sortedElems_empty : sortedElems ∅ = [] :=
  rfl

/-! ### Data model -/

/-- Errors raised by the library: the exception classes of the (absent)
automata/automaton.py base module and automata/shared/exceptions.py, plus
Python runtime failures (KeyError, RecursionError, a blocking Queue.get).
Constructors carry the diagnostic payload that the Python messages format. -/
inductive Err where
  | missingState (st : String)
  | missingSymbol (st sym : String)
  | invalidSymbol (st sym : String)
  | invalidSymbols (st : String) (syms : Finset String)
  | invalidState (st : String)
  | invalidFinalState (st : String)
  | rejectedSymbol (sym : String)
  | rejectedDFA (st : String)
  | rejectedNFA (sts : Finset String)
  | keyError (k : String)
  | recursionLimit
  | queueEmpty
  | typeError
  deriving DecidableEq

/-- a nondeterministic finite automaton (automata/nfa.py).  The transition
table is an association list state ↦ (symbol ↦ end-state list), mirroring
the nested Python dicts in insertion order; the empty string is the
epsilon symbol. -/
structure NFA where
  states : List String
  symbols : List String
  transitions : List (String × List (String × List String))
  initial_state : String
  final_states : List String
  deriving DecidableEq

/-- a deterministic finite automaton (automata/dfa.py, automata/fa/dfa.py).
The transition table maps each state to a symbol ↦ end-state table. -/
structure DFA where
  states : List String
  symbols : List String
  transitions : List (String × List (String × String))
  initial_state : String
  final_states : List String
  deriving DecidableEq

/-- embeds DFA._stringify_states (automata/fa/dfa.py:112-117) applied to a
Python set given in some iteration order: sort the state names, join them
with commas and wrap the result in braces. -/
def DFA.stringify_list (states : List String) : String :=
  "\x7b" ++ String.intercalate "," (sortStrings states) ++ "\x7d"

/-- the label of a runtime state set: DFA._stringify_states on the set's
elements. -/
def DFA.stringify_states (states : Finset String) : String :=
  DFA.stringify_list (sortedElems states)

/-- C7: the state-label function of the subset construction is well defined
on sets: two set-equal collections of state names (duplicate-free lists in
any order) produce the identical string label, because the names are sorted
before being joined. -/
theorem stringify_states_well_defined (l₁ l₂ : List String)
    (h₁ : l₁.Nodup) (h₂ : l₂.Nodup) (h : ∀ x, x ∈ l₁ ↔ x ∈ l₂) :
    DFA.stringify_list l₁ = DFA.stringify_list l₂ := by
  have hp : List.Perm l₁ l₂ := (List.perm_ext_iff_of_nodup h₁ h₂).mpr h
  unfold DFA.stringify_list
  rw [sortStrings_perm_invariant l₁ l₂ hp]

/-- C7 witness: the label function evaluated on two set-equal lists. -/
theorem stringify_states_well_defined_witness :
    (["b", "a"] : List String).Nodup ∧ (["a", "b"] : List String).Nodup ∧
    DFA.stringify_list ["b", "a"] = DFA.stringify_list ["a", "b"] :=
  ⟨by decide, by decide,
    stringify_states_well_defined ["b", "a"] ["a", "b"] (by decide) (by decide)
      (by
        intro x
        constructor <;> (intro hx; simp only [List.mem_cons,
          List.not_mem_nil, or_false] at hx ⊢; tauto))⟩

/-! ### NFA simulation -/

/-- one stack frame of NFA._add_lambda_transition_states
(automata/nfa.py:88-102): iterate the given states; for a state with an
epsilon entry, add its epsilon destinations and the result of the nested
recursive call (`outer`) on those destinations.  An error in the nested
call propagates, abandoning the frame. -/
def NFA.add_lambda_go (n : NFA)
    (outer : List String → Except Err (Finset String)) :
    List String → Except Err (Finset String)
  | [] => .ok ∅
  | st :: rest =>
    match n.transitions.lookup st with
    | none => .error (.keyError st)
    | some paths =>
      match paths.lookup "" with
      | none => NFA.add_lambda_go n outer rest
      | some dsts => do
        let sub ← outer dsts
        let rst ← NFA.add_lambda_go n outer rest
        .ok (dsts.toFinset ∪ sub ∪ rst)

/-- embeds NFA._add_lambda_transition_states (automata/nfa.py:88-102) with an
explicit recursion-depth budget: the Python code recurses into the epsilon
destinations of every state it visits without tracking visited states, so
each nested call decrements `fuel`; exhausting `fuel` models Python's
RecursionError (the interpreter recursion limit). -/
def NFA.add_lambda_transition_states (n : NFA) :
    Nat → List String → Except Err (Finset String)
  | 0, _ => .error .recursionLimit
  | fuel + 1, states => n.add_lambda_go (n.add_lambda_transition_states fuel) states

/-- embeds NFA._get_next_current_states (automata/nfa.py:104-116) iterating
the current states in the given order: union each state's destinations for
the symbol (skipping missing or empty entries, which are falsy in Python)
together with their epsilon extensions. -/
def NFA.get_next_current_states_list (n : NFA) (fuel : Nat) :
    List String → String → Except Err (Finset String)
  | [], _ => .ok ∅
  | st :: rest, sym =>
    match n.transitions.lookup st with
    | none => .error (.keyError st)
    | some paths =>
      match paths.lookup sym with
      | none => n.get_next_current_states_list fuel rest sym
      | some dsts =>
        if dsts.isEmpty then n.get_next_current_states_list fuel rest sym
        else do
          let lam ← n.add_lambda_transition_states fuel dsts
          let rst ← n.get_next_current_states_list fuel rest sym
          .ok (dsts.toFinset ∪ lam ∪ rst)

/-- NFA._get_next_current_states on a runtime state set: Python iterates the
set in unspecified order; the resulting union does not depend on the order,
and the enumeration is fixed here to sorted order. -/
def NFA.get_next_current_states (n : NFA) (fuel : Nat) (current : Finset String)
    (sym : String) : Except Err (Finset String) :=
  n.get_next_current_states_list fuel (sortedElems current) sym

/-- the per-symbol input check of the acceptance tests.  Modelled from the
spec: the old-generation base module automata/automaton.py is not in the
sources; §4.2 and §7 specify that an input symbol outside the alphabet fails
immediately with an invalid-symbol rejection, matching
DFA._validate_input_symbol (automata/fa/dfa.py:80-84). -/
def NFA.validate_input_symbol (n : NFA) (sym : String) : Except Err Unit :=
  if sym ∈ n.symbols then .ok () else .error (.rejectedSymbol sym)

/-- the simulation loop of NFA.validate_input (automata/nfa.py:118-135)
started from an arbitrary current state set: per symbol, check the symbol
then replace the set by the next current states; at the end fail unless the
set intersects the final states, reporting the whole stop set. -/
def NFA.run_from (n : NFA) (fuel : Nat) :
    Finset String → List String → Except Err (Finset String)
  | current, [] =>
    if current ∩ n.final_states.toFinset = ∅ then .error (.rejectedNFA current)
    else .ok current
  | current, sym :: rest => do
    let _ ← n.validate_input_symbol sym
    let nxt ← n.get_next_current_states fuel current sym
    NFA.run_from n fuel nxt rest

/-- embeds NFA.validate_input (automata/nfa.py:118-135): the simulation
starts from the bare singleton of the initial state. -/
def NFA.validate_input (n : NFA) (fuel : Nat) (input : List String) :
    Except Err (Finset String) :=
  n.run_from fuel {n.initial_state} input

/-- the epsilon closure of a state set as the library computes it: the set
itself together with NFA._add_lambda_transition_states of its elements. -/
def NFA.epsilon_closure (n : NFA) (fuel : Nat) (states : Finset String) :
    Except Err (Finset String) := do
  let lam ← n.add_lambda_transition_states fuel (sortedElems states)
  .ok (states ∪ lam)

/-! ### Structural validation -/

/-- embeds _validate_transition_start_states (automata/fa/dfa.py:49-55; the
old-generation base class holding the same check is not in the sources):
every declared state must have a transition-table entry. -/
def validate_transition_start_states {β : Type} (states : List String)
    (transitions : List (String × β)) : Except Err Unit :=
  match states with
  | [] => .ok ()
  | st :: rest =>
    if (transitions.lookup st).isSome then
      validate_transition_start_states rest transitions
    else .error (.missingState st)

/-- embeds NFA._validate_transition_symbols (automata/nfa.py:60-68): the
transition keys of a state minus the alphabet extended with epsilon must be
empty; the error reports the whole invalid set. -/
def NFA.validate_transition_symbols (n : NFA) (st : String)
    (paths : List (String × List String)) : Except Err Unit :=
  let invalid := (paths.map Prod.fst).toFinset \ (n.symbols.toFinset ∪ {""})
  if invalid = ∅ then .ok () else .error (.invalidSymbols st invalid)

/-- first state of the list outside `states` raises InvalidStateError.
Modelled from the spec for the old generation: the base-class
_validate_transition_end_states is not in the sources; §3 invariant 4 and
§4.1 say a transition destination outside `states` is an InvalidStateError,
matching DFA._validate_transition_end_states (automata/fa/dfa.py:57-63). -/
def validate_states_in (states : List String) : List String → Except Err Unit
  | [] => .ok ()
  | st :: rest =>
    if st ∈ states then validate_states_in states rest
    else .error (.invalidState st)

/-- the union of all destination sets of a state's transition table
(`set().union(*paths.values())` in automata/nfa.py:80). -/
def NFA.path_end_states (paths : List (String × List String)) : Finset String :=
  paths.foldl (fun acc p => acc ∪ p.2.toFinset) ∅

/-- Modelled from the spec: _validate_initial_state lives in the absent base
module; §3 invariant 5 and §4.1 say an initial state outside `states` is an
InvalidStateError. -/
def validate_initial_state (states : List String) (initial : String) :
    Except Err Unit :=
  if initial ∈ states then .ok () else .error (.invalidState initial)

/-- Modelled from the spec: _validate_final_states lives in the absent base
module; §3 invariant 6 and §4.1 say a final state outside `states` raises
the final-state error, checked last. -/
def validate_final_states (states : List String) :
    List String → Except Err Unit
  | [] => .ok ()
  | f :: rest =>
    if f ∈ states then validate_final_states states rest
    else .error (.invalidFinalState f)

/-- the per-state loop of NFA.validate_automaton (automata/nfa.py:76-81):
for each table entry, check its symbols, then the union of its destination
states. -/
def NFA.validate_transitions_loop (n : NFA) :
    List (String × List (String × List String)) → Except Err Unit
  | [] => .ok ()
  | (st, paths) :: rest => do
    let _ ← n.validate_transition_symbols st paths
    let _ ← validate_states_in n.states
      (sortedElems (NFA.path_end_states paths))
    NFA.validate_transitions_loop n rest

/-- embeds NFA.validate_automaton (automata/nfa.py:70-86); Python returns
True on success, modelled as `.ok ()`. -/
def NFA.validate_automaton (n : NFA) : Except Err Unit := do
  let _ ← validate_transition_start_states n.states n.transitions
  let _ ← n.validate_transitions_loop n.transitions
  let _ ← validate_initial_state n.states n.initial_state
  validate_final_states n.states n.final_states

/-! ### C3: the epsilon-closure recursion on an epsilon cycle -/

/-- the NFA of spec §8 scenario 3: an epsilon cycle between two states,
neither final. -/
def cycNFA : NFA :=
  ⟨["q1", "q2"], ["a"],
    [("q1", [("", ["q2"])]), ("q2", [("", ["q1"])])], "q1", []⟩

/-- on the epsilon cycle, the closure recursion never returns, whatever
recursion depth is allowed: it alternates between the two states forever. -/
theorem cyc_add_lambda_diverges (fuel : Nat) :
    cycNFA.add_lambda_transition_states fuel ["q1"] = .error .recursionLimit ∧
    cycNFA.add_lambda_transition_states fuel ["q2"] = .error .recursionLimit := by
  induction fuel with
  | zero => exact ⟨rfl, rfl⟩
  | succ f ih =>
    refine ⟨?_, ?_⟩
    · show (cycNFA.add_lambda_transition_states f ["q2"]).bind _ = _
      rw [ih.2]; rfl
    · show (cycNFA.add_lambda_transition_states f ["q1"]).bind _ = _
      rw [ih.1]; rfl

/-- C3 (code bug): cycNFA is a valid NFA, yet the epsilon-closure
computation does not terminate on it: for every recursion budget the
closure of either state of the cycle — and hence of the set containing
either state — aborts with the recursion limit instead of returning the two
states of the cycle.  The spec mandates visited-state tracking; the code
recurses naively. -/
theorem epsilon_closure_diverges_on_cycle :
    cycNFA.validate_automaton = .ok () ∧
    (∀ fuel,
      cycNFA.add_lambda_transition_states fuel ["q1"] =
        .error .recursionLimit ∧
      cycNFA.add_lambda_transition_states fuel ["q2"] =
        .error .recursionLimit) ∧
    (∀ fuel, cycNFA.epsilon_closure fuel {"q1"} = .error .recursionLimit) := by
  refine ⟨by decide, cyc_add_lambda_diverges, ?_⟩
  intro fuel
  show (cycNFA.add_lambda_transition_states fuel (sortedElems {"q1"})).bind _ = _
  have hs : sortedElems ({"q1"} : Finset String) = ["q1"] := by decide
  rw [hs, (cyc_add_lambda_diverges fuel).1]
  rfl

/-! ### DFA validation (automata/fa/dfa.py; the old generation
automata/dfa.py performs the same checks per state with set-computed
messages) -/

/-- embeds DFA._validate_transition_missing_symbols
(automata/fa/dfa.py:34-40): every alphabet symbol must be a key of the
state's table. -/
def validate_missing_symbols (st : String) (paths : List (String × String)) :
    List String → Except Err Unit
  | [] => .ok ()
  | sym :: rest =>
    if (paths.lookup sym).isSome then validate_missing_symbols st paths rest
    else .error (.missingSymbol st sym)

/-- embeds DFA._validate_transition_invalid_symbols
(automata/fa/dfa.py:42-47): every key of the state's table must be an
alphabet symbol. -/
def validate_invalid_symbols (st : String) (symbols : List String) :
    List (String × String) → Except Err Unit
  | [] => .ok ()
  | (sym, _) :: rest =>
    if sym ∈ symbols then validate_invalid_symbols st symbols rest
    else .error (.invalidSymbol st sym)

/-- embeds DFA._validate_transition_end_states (automata/fa/dfa.py:57-63):
every destination of the state's table must be a declared state. -/
def validate_end_states (states : List String) :
    List (String × String) → Except Err Unit
  | [] => .ok ()
  | (_, dst) :: rest =>
    if dst ∈ states then validate_end_states states rest
    else .error (.invalidState dst)

/-- embeds DFA._validate_transitions (automata/fa/dfa.py:65-69): per state,
missing symbols, then invalid symbols, then end states. -/
def DFA.validate_transitions (d : DFA) (st : String)
    (paths : List (String × String)) : Except Err Unit := do
  let _ ← validate_missing_symbols st paths d.symbols
  let _ ← validate_invalid_symbols st d.symbols paths
  validate_end_states d.states paths

/-- the per-entry loop of DFA.validate_self (automata/fa/dfa.py:74-75). -/
def DFA.validate_transitions_loop (d : DFA) :
    List (String × List (String × String)) → Except Err Unit
  | [] => .ok ()
  | (st, paths) :: rest => do
    let _ ← d.validate_transitions st paths
    DFA.validate_transitions_loop d rest

/-- embeds DFA.validate_self (automata/fa/dfa.py:71-78); the initial- and
final-state checks of the absent base class are modelled from the spec as
in `validate_initial_state` and `validate_final_states`. -/
def DFA.validate_self (d : DFA) : Except Err Unit := do
  let _ ← validate_transition_start_states d.states d.transitions
  let _ ← d.validate_transitions_loop d.transitions
  let _ ← validate_initial_state d.states d.initial_state
  validate_final_states d.states d.final_states

/-! ### DFA acceptance -/

/-- embeds DFA._validate_input_symbol (automata/fa/dfa.py:80-84). -/
def DFA.validate_input_symbol (d : DFA) (sym : String) : Except Err Unit :=
  if sym ∈ d.symbols then .ok () else .error (.rejectedSymbol sym)

/-- the table lookup `self.transitions[current_state][symbol]`; `none`
models Python's KeyError, unreachable on a validated DFA. -/
def DFA.lookup_transition (d : DFA) (st sym : String) : Option String :=
  (d.transitions.lookup st).bind (fun paths => paths.lookup sym)

/-- the walk of DFA.validate_input (automata/dfa.py:62-77) from an
arbitrary state: per symbol check it, then step; at the end return the
stop state if final, else fail naming it. -/
def DFA.run_from (d : DFA) : String → List String → Except Err String
  | cur, [] =>
    if cur ∈ d.final_states then .ok cur else .error (.rejectedDFA cur)
  | cur, sym :: rest => do
    let _ ← d.validate_input_symbol sym
    match d.lookup_transition cur sym with
    | none => .error (.keyError cur)
    | some nxt => DFA.run_from d nxt rest

/-- embeds DFA.validate_input (automata/dfa.py:62-77): walk the input from
the initial state and return the stop state on acceptance. -/
def DFA.validate_input (d : DFA) (input : List String) : Except Err String :=
  d.run_from d.initial_state input

/-- the states yielded by DFA._validate_input_yield
(automata/fa/dfa.py:86-103) after the current one. -/
def DFA.run_yield (d : DFA) : String → List String → Except Err (List String)
  | cur, [] =>
    if cur ∈ d.final_states then .ok [] else .error (.rejectedDFA cur)
  | cur, sym :: rest => do
    let _ ← d.validate_input_symbol sym
    match d.lookup_transition cur sym with
    | none => .error (.keyError cur)
    | some nxt => do
      let l ← DFA.run_yield d nxt rest
      .ok (nxt :: l)

/-- embeds DFA._validate_input_yield (automata/fa/dfa.py:86-103) consumed to
a list: the generator yields the initial state and each state reached, then
raises if the stop state is not final; on acceptance the model returns the
full yielded sequence. -/
def DFA.validate_input_yield (d : DFA) (input : List String) :
    Except Err (List String) := do
  let l ← d.run_yield d.initial_state input
  .ok (d.initial_state :: l)

/-! ### NFA→DFA subset construction -/

/-- Python `set.add` on a set modelled as an insertion-ordered list. -/
def insertOnce (l : List String) (x : String) : List String :=
  if x ∈ l then l else l ++ [x]

/-- Python dict assignment `dict[k] = v`: overwrite in place, keeping the
key's position, or append a new entry. -/
def dict_set {β : Type} (l : List (String × β)) (k : String) (v : β) :
    List (String × β) :=
  match l with
  | [] => [(k, v)]
  | (k', v') :: rest =>
    if k' == k then (k, v) :: rest else (k', v') :: dict_set rest k v

/-- the working data of DFA._init_from_nfa: the queue of NFA state sets and
the accumulated states, transition table and final states of the new DFA. -/
structure SubsetState where
  queue : List (Finset String)
  dstates : List String
  dtrans : List (String × List (String × String))
  dfinals : List String

/-- the inner symbol loop of DFA._init_from_nfa
(automata/fa/dfa.py:143-148): for every alphabet symbol compute the next
current states, record the transition to their label, and queue them. -/
def DFA.init_symbols_loop (n : NFA) (fuel : Nat) (S : Finset String) :
    List String → Except Err (List (String × String) × List (Finset String))
  | [] => .ok ([], [])
  | sym :: rest => do
    let nxt ← n.get_next_current_states fuel S sym
    let (tbl, adds) ← DFA.init_symbols_loop n fuel S rest
    .ok ((sym, DFA.stringify_states nxt) :: tbl, nxt :: adds)

/-- one iteration of the construction loop (automata/fa/dfa.py:133-148):
dequeue a state set, record its label as a DFA state with an (initially
empty, here fully assembled) transition row, mark it final if it meets the
NFA's final states, then run the symbol loop.  Python's `Queue.get()` on an
empty queue blocks forever, modelled as `queueEmpty`. -/
def DFA.init_step (n : NFA) (fuel : Nat) (st : SubsetState) :
    Except Err SubsetState :=
  match st.queue with
  | [] => .error .queueEmpty
  | S :: qrest => do
    let label := DFA.stringify_states S
    let dstates := insertOnce st.dstates label
    let dfinals :=
      if S ∩ n.final_states.toFinset = ∅ then st.dfinals
      else insertOnce st.dfinals label
    let (tbl, adds) ← DFA.init_symbols_loop n fuel S n.symbols
    .ok ⟨qrest ++ adds, dstates, dict_set st.dtrans label tbl, dfinals⟩

/-- the `for i in range(0, 2**len(nfa.states))` loop: a fixed number of
iterations, with no seen-set guard. -/
def DFA.init_loop (n : NFA) (fuel : Nat) :
    Nat → SubsetState → Except Err SubsetState
  | 0, st => .ok st
  | k + 1, st => do
    let st' ← DFA.init_step n fuel st
    DFA.init_loop n fuel k st'

/-- embeds DFA._init_from_nfa (automata/fa/dfa.py:119-153, and identically
automata/dfa.py:86-122) up to the final `__init__` call: the queue is
seeded with the bare singleton of the NFA's initial state, the loop runs
2^|states| times, and the initial state is the label of the bare
singleton. -/
def DFA.init_from_nfa_params (n : NFA) (fuel : Nat) : Except Err DFA := do
  let st ← DFA.init_loop n fuel (2 ^ n.states.length)
    ⟨[{n.initial_state}], [], [], []⟩
  .ok ⟨st.dstates, n.symbols, st.dtrans,
    DFA.stringify_states {n.initial_state}, st.dfinals⟩

/-- DFA._init_from_nfa including the final `__init__(...)` call, which
copies the computed fields and runs validation. -/
def DFA.init_from_nfa (n : NFA) (fuel : Nat) : Except Err DFA := do
  let d ← DFA.init_from_nfa_params n fuel
  let _ ← d.validate_self
  .ok d

/-! ### C1/C2: the construction loop on a two-branch NFA -/

/-- a valid NFA on which the fixed-count construction loop leaves the
reachable subset `\x7ba,b\x7d` unprocessed while referencing its label:
state `b` loops on `x` and fans out to both states on `y`, and state `a`
has no entry for `y` (legal partiality). -/
def branchNFA : NFA :=
  ⟨["a", "b"], ["x", "y"],
    [("a", [("x", ["b"])]), ("b", [("x", ["b"]), ("y", ["a", "b"])])],
    "a", ["a"]⟩

/-- C1 (code bug): branchNFA is valid, yet converting it raises
InvalidStateError from the final validation pass: the 2^n-iteration queue
loop re-processes duplicate subsets and never dequeues the reachable subset
labelled `\x7ba,b\x7d`, which other transitions reference. -/
theorem subset_construction_fails_validation :
    branchNFA.validate_automaton = .ok () ∧
    DFA.init_from_nfa branchNFA 10 = .error (.invalidState "\x7ba,b\x7d") := by
  constructor
  · decide
  · decide

/-- C2 (code bug): branchNFA accepts the empty string, but no converted DFA
exists to accept it: the conversion aborts with a validation error, so the
two acceptance tests cannot agree on this input. -/
theorem nfa_accepts_but_converted_dfa_unavailable :
    branchNFA.validate_input 10 [] = .ok {"a"} ∧
    DFA.init_from_nfa branchNFA 10 = .error (.invalidState "\x7ba,b\x7d") := by
  constructor
  · decide
  · decide

/-! ### C4: where acceptance and conversion start -/

/-- a valid NFA whose initial state reaches a final state by one epsilon
transition: `p -ε→ q`, `q` final, `q -z→ q`. -/
def epsNFA : NFA :=
  ⟨["p", "q"], ["z"], [("p", [("", ["q"])]), ("q", [("z", ["q"])])],
    "p", ["q"]⟩

/-- the DFA parameters that the construction loop computes for epsNFA. -/
def epsDFA : DFA :=
  ⟨["\x7bp\x7d", "\x7b\x7d"], ["z"],
    [("\x7bp\x7d", [("z", "\x7b\x7d")]), ("\x7b\x7d", [("z", "\x7b\x7d")])],
    "\x7bp\x7d", []⟩

/-- C4 counterexample: on epsNFA, a final state is epsilon-reachable from
the initial state (the closure of `p` is `\x7bp,q\x7d`), yet the acceptance
test on the empty string fails reporting the bare singleton, and the
constructed DFA's initial state is the label of the bare singleton, not of
the closure.  Neither the acceptance test nor the conversion starts from
the epsilon-closure. -/
theorem initial_closure_counterexample :
    epsNFA.validate_automaton = .ok () ∧
    epsNFA.epsilon_closure 10 {"p"} = .ok {"p", "q"} ∧
    "q" ∈ epsNFA.final_states ∧
    epsNFA.validate_input 10 [] = .error (.rejectedNFA {"p"}) ∧
    Except.map DFA.initial_state (DFA.init_from_nfa_params epsNFA 10) =
      .ok "\x7bp\x7d" ∧
    DFA.stringify_states ({"p", "q"} : Finset String) = "\x7bp,q\x7d" ∧
    ("\x7bp\x7d" : String) ≠ "\x7bp,q\x7d" := by
  refine ⟨by decide, by decide, by decide, by decide, by decide, by decide,
    by decide⟩

/-- C4 amended: both the NFA acceptance test and the subset construction
begin from the bare singleton of the initial state: acceptance simulates
from `\x7binitial_state\x7d` (epsilon closure is applied only to the
destinations of each consumed symbol), and the constructed DFA's initial
state is the label of the bare singleton. -/
theorem acceptance_and_conversion_start_from_bare_singleton
    (n : NFA) (fuel : Nat) (w : List String) (d : DFA)
    (h : DFA.init_from_nfa_params n fuel = .ok d) :
    n.validate_input fuel w = n.run_from fuel {n.initial_state} w ∧
    d.initial_state = DFA.stringify_states {n.initial_state} := by
  refine ⟨rfl, ?_⟩
  unfold DFA.init_from_nfa_params at h
  cases hl : DFA.init_loop n fuel (2 ^ n.states.length)
      ⟨[{n.initial_state}], [], [], []⟩ with
  | error e => rw [hl] at h; exact absurd h (by simp [Bind.bind, Except.bind])
  | ok st =>
    rw [hl] at h
    have h' : (⟨st.dstates, n.symbols, st.dtrans,
        DFA.stringify_states {n.initial_state}, st.dfinals⟩ : DFA) = d := by
      simpa [Bind.bind, Except.bind] using h
    rw [← h']

/-- C4 amended witness: the amended statement instantiated on epsNFA. -/
theorem acceptance_and_conversion_start_from_bare_singleton_witness :
    epsNFA.validate_input 10 ["z"] =
      epsNFA.run_from 10 {epsNFA.initial_state} ["z"] ∧
    epsDFA.initial_state = DFA.stringify_states {epsNFA.initial_state} :=
  acceptance_and_conversion_start_from_bare_singleton epsNFA 10 ["z"] epsDFA
    (by decide)

/-! ### C5: the order of the validation checks

The checks are characterized by the list of violations in traversal order:
validation returns the head of that list.  The lists spell out the order
actually implemented: all missing start states first (in declared-state
order), then per transition-table entry its missing symbols, invalid
symbols and invalid end states, then the initial state, then the final
states. -/

/-- lift the first element of an error list to a validation outcome. -/
def toExceptU : Option Err → Except Err Unit
  | none => .ok ()
  | some e => .error e

/-- the missing-start-state violations, in declared-state order. -/
def start_state_errors {β : Type} (states : List String)
    (transitions : List (String × β)) : List Err :=
  states.filterMap (fun st =>
    if (transitions.lookup st).isSome then none else some (.missingState st))

/-- the missing-symbol violations of one state, in alphabet order. -/
def missing_symbol_errors (st : String) (paths : List (String × String))
    (symbols : List String) : List Err :=
  symbols.filterMap (fun sym =>
    if (paths.lookup sym).isSome then none else some (.missingSymbol st sym))

/-- the invalid-symbol violations of one state, in table order. -/
def invalid_symbol_errors (st : String) (symbols : List String)
    (paths : List (String × String)) : List Err :=
  paths.filterMap (fun p =>
    if p.1 ∈ symbols then none else some (.invalidSymbol st p.1))

/-- the invalid-end-state violations of one state, in table order. -/
def end_state_errors (states : List String)
    (paths : List (String × String)) : List Err :=
  paths.filterMap (fun p =>
    if p.2 ∈ states then none else some (.invalidState p.2))

/-- the violations of one transition-table entry, in check order. -/
def DFA.state_errors (d : DFA) (st : String)
    (paths : List (String × String)) : List Err :=
  missing_symbol_errors st paths d.symbols ++
    (invalid_symbol_errors st d.symbols paths ++
      end_state_errors d.states paths)

/-- the violations of the whole transition table, in entry order. -/
def DFA.transitions_errors (d : DFA) :
    List (String × List (String × String)) → List Err
  | [] => []
  | (st, paths) :: rest => d.state_errors st paths ++ d.transitions_errors rest

/-- the initial-state violation, if any. -/
def initial_state_errors (states : List String) (initial : String) : List Err :=
  if initial ∈ states then [] else [.invalidState initial]

/-- the final-state violations, in declared order. -/
def final_state_errors (states : List String) (finals : List String) :
    List Err :=
  finals.filterMap (fun f =>
    if f ∈ states then none else some (.invalidFinalState f))

/-- every violation of a candidate DFA, in the order the checks run. -/
def DFA.validation_errors (d : DFA) : List Err :=
  start_state_errors d.states d.transitions ++
    (d.transitions_errors d.transitions ++
      (initial_state_errors d.states d.initial_state ++
        final_state_errors d.states d.final_states))

theorem toExceptU_seq (l₁ l₂ : List Err) :
    (do let _ ← toExceptU l₁.head?; toExceptU l₂.head? : Except Err Unit) =
      toExceptU (l₁ ++ l₂).head? := by
  cases l₁ <;> rfl

theorem validate_transition_start_states_eq {β : Type} (states : List String)
    (transitions : List (String × β)) :
    validate_transition_start_states states transitions =
      toExceptU (start_state_errors states transitions).head? := by
  induction states with
  | nil => rfl
  | cons st rest ih =>
    by_cases h : (transitions.lookup st).isSome <;>
      simp [validate_transition_start_states, start_state_errors, h,
        toExceptU] <;>
      simpa [start_state_errors] using ih

theorem validate_missing_symbols_eq (st : String)
    (paths : List (String × String)) (symbols : List String) :
    validate_missing_symbols st paths symbols =
      toExceptU (missing_symbol_errors st paths symbols).head? := by
  induction symbols with
  | nil => rfl
  | cons sym rest ih =>
    by_cases h : (paths.lookup sym).isSome <;>
      simp [validate_missing_symbols, missing_symbol_errors, h, toExceptU] <;>
      simpa [missing_symbol_errors] using ih

theorem validate_invalid_symbols_eq (st : String) (symbols : List String)
    (paths : List (String × String)) :
    validate_invalid_symbols st symbols paths =
      toExceptU (invalid_symbol_errors st symbols paths).head? := by
  induction paths with
  | nil => rfl
  | cons p rest ih =>
    obtain ⟨sym, dst⟩ := p
    by_cases h : sym ∈ symbols <;>
      simp [validate_invalid_symbols, invalid_symbol_errors, h, toExceptU] <;>
      simpa [invalid_symbol_errors] using ih

theorem validate_end_states_eq (states : List String)
    (paths : List (String × String)) :
    validate_end_states states paths =
      toExceptU (end_state_errors states paths).head? := by
  induction paths with
  | nil => rfl
  | cons p rest ih =>
    obtain ⟨sym, dst⟩ := p
    by_cases h : dst ∈ states <;>
      simp [validate_end_states, end_state_errors, h, toExceptU] <;>
      simpa [end_state_errors] using ih

theorem validate_initial_state_eq (states : List String) (initial : String) :
    validate_initial_state states initial =
      toExceptU (initial_state_errors states initial).head? := by
  by_cases h : initial ∈ states <;>
    simp [validate_initial_state, initial_state_errors, h, toExceptU]

theorem validate_final_states_eq (states finals : List String) :
    validate_final_states states finals =
      toExceptU (final_state_errors states finals).head? := by
  induction finals with
  | nil => rfl
  | cons f rest ih =>
    by_cases h : f ∈ states <;>
      simp [validate_final_states, final_state_errors, h, toExceptU] <;>
      simpa [final_state_errors] using ih

theorem DFA.validate_transitions_eq (d : DFA) (st : String)
    (paths : List (String × String)) :
    d.validate_transitions st paths =
      toExceptU (d.state_errors st paths).head? := by
  unfold DFA.validate_transitions DFA.state_errors
  rw [validate_missing_symbols_eq]
  simp only [validate_invalid_symbols_eq, validate_end_states_eq,
    toExceptU_seq]

theorem DFA.validate_transitions_loop_eq (d : DFA)
    (l : List (String × List (String × String))) :
    d.validate_transitions_loop l = toExceptU (d.transitions_errors l).head? := by
  induction l with
  | nil => rfl
  | cons p rest ih =>
    obtain ⟨st, paths⟩ := p
    show (do let _ ← d.validate_transitions st paths
             d.validate_transitions_loop rest : Except Err Unit) = _
    rw [DFA.validate_transitions_eq]
    simp only [ih, toExceptU_seq]
    rfl

/-- C5 amended: the validation of a candidate DFA raises exactly the first
violation in traversal order — all missing start states first, then for
each transition-table entry in table order its missing symbols, its invalid
symbols and its invalid end states, then the invalid initial state, then
the invalid final states.  (The symbol and end-state checks interleave per
state rather than forming global phases.) -/
theorem dfa_validation_first_error_wins (d : DFA) :
    d.validate_self = toExceptU d.validation_errors.head? := by
  unfold DFA.validate_self DFA.validation_errors
  rw [validate_transition_start_states_eq]
  simp only [DFA.validate_transitions_loop_eq, validate_initial_state_eq,
    validate_final_states_eq, toExceptU_seq]

/-- the single symbol-set violation of one NFA state, if any
(NFA._validate_transition_symbols reports the whole invalid set at once). -/
def NFA.symbol_errors (n : NFA) (st : String)
    (paths : List (String × List String)) : List Err :=
  let invalid := (paths.map Prod.fst).toFinset \ (n.symbols.toFinset ∪ {""})
  if invalid = ∅ then [] else [.invalidSymbols st invalid]

/-- the invalid-destination violations among a list of states. -/
def states_in_errors (states : List String) (l : List String) : List Err :=
  l.filterMap (fun s =>
    if s ∈ states then none else some (.invalidState s))

/-- the violations of one NFA transition-table entry, in check order. -/
def NFA.entry_errors (n : NFA) (st : String)
    (paths : List (String × List String)) : List Err :=
  n.symbol_errors st paths ++
    states_in_errors n.states (sortedElems (NFA.path_end_states paths))

/-- the violations of the whole NFA transition table, in entry order. -/
def NFA.transitions_errors (n : NFA) :
    List (String × List (String × List String)) → List Err
  | [] => []
  | (st, paths) :: rest => n.entry_errors st paths ++ n.transitions_errors rest

/-- every violation of a candidate NFA, in the order the checks run. -/
def NFA.validation_errors (n : NFA) : List Err :=
  start_state_errors n.states n.transitions ++
    (n.transitions_errors n.transitions ++
      (initial_state_errors n.states n.initial_state ++
        final_state_errors n.states n.final_states))

theorem NFA.validate_transition_symbols_eq (n : NFA) (st : String)
    (paths : List (String × List String)) :
    n.validate_transition_symbols st paths =
      toExceptU (n.symbol_errors st paths).head? := by
  by_cases h :
      (paths.map Prod.fst).toFinset \ (n.symbols.toFinset ∪ {""}) = ∅ <;>
    simp [NFA.validate_transition_symbols, NFA.symbol_errors, h, toExceptU]

theorem validate_states_in_eq (states : List String) (l : List String) :
    validate_states_in states l = toExceptU (states_in_errors states l).head? := by
  induction l with
  | nil => rfl
  | cons s rest ih =>
    by_cases h : s ∈ states <;>
      simp [validate_states_in, states_in_errors, h, toExceptU] <;>
      simpa [states_in_errors] using ih

theorem NFA.validate_transitions_loop_errs (n : NFA)
    (l : List (String × List (String × List String))) :
    n.validate_transitions_loop l = toExceptU (n.transitions_errors l).head? := by
  induction l with
  | nil => rfl
  | cons p rest ih =>
    obtain ⟨st, paths⟩ := p
    show (do let _ ← n.validate_transition_symbols st paths
             let _ ← validate_states_in n.states
               (sortedElems (NFA.path_end_states paths))
             n.validate_transitions_loop rest : Except Err Unit) = _
    rw [NFA.validate_transition_symbols_eq]
    simp only [validate_states_in_eq, ih, toExceptU_seq]
    simp only [NFA.transitions_errors, NFA.entry_errors, List.append_assoc]

theorem nfa_validation_first_error_wins (n : NFA) :
    n.validate_automaton = toExceptU n.validation_errors.head? := by
  unfold NFA.validate_automaton NFA.validation_errors
  rw [validate_transition_start_states_eq]
  simp only [NFA.validate_transitions_loop_errs, validate_initial_state_eq,
    validate_final_states_eq, toExceptU_seq]

/-- C5 amended: for both automaton kinds, validation raises exactly the
first violation in traversal order — all missing start states first, then
for each transition-table entry in table order its symbol checks followed
by its end-state checks (for the DFA: missing symbols, invalid symbols,
end states; for the NFA: the invalid-symbol set, end states), then the
invalid initial state, then the invalid final states.  The symbol and
end-state categories interleave per state rather than forming global
phases. -/
theorem validation_first_error_wins :
    (∀ d : DFA, d.validate_self = toExceptU d.validation_errors.head?) ∧
    (∀ n : NFA, n.validate_automaton = toExceptU n.validation_errors.head?) :=
  ⟨dfa_validation_first_error_wins, nfa_validation_first_error_wins⟩

/-- a candidate DFA violating two invariants at once: state s0's table has
an invalid end state (category: invalid end states) and state s1's table
has an invalid symbol (category: symbol errors, earlier in the claimed
global order). -/
def badDFA : DFA :=
  ⟨["s0", "s1"], ["0"],
    [("s0", [("0", "BAD")]), ("s1", [("0", "s0"), ("x", "s0")])],
    "s0", []⟩

/-- C5 counterexample: badDFA has an invalid-symbol violation ("x" at state
s1), which belongs to an earlier category of the claimed fixed order than
invalid end states, yet validation raises the end-state error of state s0,
because the checks run per state in table order.  All start states are
present, so only the two categories compete. -/
theorem validation_order_counterexample :
    badDFA.validate_self = .error (.invalidState "BAD") ∧
    start_state_errors badDFA.states badDFA.transitions = [] ∧
    badDFA.transitions.lookup "s1" = some [("0", "s0"), ("x", "s0")] ∧
    invalid_symbol_errors "s1" badDFA.symbols [("0", "s0"), ("x", "s0")] =
      [.invalidSymbol "s1" "x"] := by
  refine ⟨by decide, by decide, by decide, by decide⟩

/-! ### C6: the DFA acceptance walk on a valid DFA -/

theorem filterMap_nil_forall {α β : Type} {f : α → Option β} {l : List α}
    (h : l.filterMap f = []) {a : α} (ha : a ∈ l) : f a = none := by
  induction l with
  | nil => cases ha
  | cons x rest ih =>
    rw [List.filterMap_cons] at h
    cases hf : f x with
    | none =>
      rw [hf] at h
      rcases List.mem_cons.mp ha with rfl | ha'
      · exact hf
      · exact ih h ha'
    | some b => rw [hf] at h; cases h

theorem mem_of_lookup {β : Type} {l : List (String × β)} {k : String} {v : β}
    (h : l.lookup k = some v) : (k, v) ∈ l := by
  induction l with
  | nil => cases h
  | cons p rest ih =>
    obtain ⟨k', v'⟩ := p
    by_cases hk : k = k'
    · subst hk
      simp [List.lookup] at h
      simp [h]
    · have hk' : (k == k') = false := beq_false_of_ne hk
      simp [List.lookup, hk'] at h
      exact List.mem_cons_of_mem _ (ih h)

theorem DFA.valid_parts (d : DFA) (h : d.validate_self = .ok ()) :
    start_state_errors d.states d.transitions = [] ∧
    d.transitions_errors d.transitions = [] ∧
    initial_state_errors d.states d.initial_state = [] ∧
    final_state_errors d.states d.final_states = [] := by
  rw [dfa_validation_first_error_wins] at h
  have hnil : d.validation_errors = [] := by
    cases he : d.validation_errors with
    | nil => rfl
    | cons e t => rw [he] at h; cases h
  simpa [DFA.validation_errors, List.append_eq_nil] using hnil

theorem DFA.state_errors_nil (d : DFA)
    {l : List (String × List (String × String))}
    (h : d.transitions_errors l = []) {st : String}
    {paths : List (String × String)} (hm : (st, paths) ∈ l) :
    d.state_errors st paths = [] := by
  induction l with
  | nil => cases hm
  | cons p rest ih =>
    obtain ⟨st', paths'⟩ := p
    rw [DFA.transitions_errors, List.append_eq_nil] at h
    rcases List.mem_cons.mp hm with heq | hm'
    · cases heq; exact h.1
    · exact ih h.2 hm'

theorem DFA.initial_mem (d : DFA) (h : d.validate_self = .ok ()) :
    d.initial_state ∈ d.states := by
  have hp := (DFA.valid_parts d h).2.2.1
  by_cases hm : d.initial_state ∈ d.states
  · exact hm
  · rw [initial_state_errors, if_neg hm] at hp; cases hp

theorem DFA.valid_step (d : DFA) (h : d.validate_self = .ok ())
    {cur sym : String} (hcur : cur ∈ d.states) (hsym : sym ∈ d.symbols) :
    ∃ nxt, d.lookup_transition cur sym = some nxt ∧ nxt ∈ d.states := by
  obtain ⟨hstart, htrans, -, -⟩ := DFA.valid_parts d h
  have hlook : (d.transitions.lookup cur).isSome := by
    have := filterMap_nil_forall hstart hcur
    by_cases hs : (d.transitions.lookup cur).isSome
    · exact hs
    · rw [if_neg hs] at this; cases this
  obtain ⟨paths, hpaths⟩ := Option.isSome_iff_exists.mp hlook
  have hmem : (cur, paths) ∈ d.transitions := mem_of_lookup hpaths
  have hse : d.state_errors cur paths = [] := DFA.state_errors_nil d htrans hmem
  rw [DFA.state_errors, List.append_eq_nil, List.append_eq_nil] at hse
  obtain ⟨hmiss, -, hend⟩ := hse
  have hsome : (paths.lookup sym).isSome := by
    have := filterMap_nil_forall hmiss hsym
    by_cases hs : (paths.lookup sym).isSome
    · exact hs
    · rw [if_neg hs] at this; cases this
  obtain ⟨nxt, hnxt⟩ := Option.isSome_iff_exists.mp hsome
  refine ⟨nxt, ?_, ?_⟩
  · rw [DFA.lookup_transition, hpaths]; exact hnxt
  · have hmem' : (sym, nxt) ∈ paths := mem_of_lookup hnxt
    have := filterMap_nil_forall hend hmem'
    by_cases hn : nxt ∈ d.states
    · exact hn
    · rw [if_neg hn] at this; cases this

/-- the iterated transition function of the DFA (the states the walk of
validate_input passes through are its iterates). -/
def dfa_walk (d : DFA) : String → List String → Option String
  | cur, [] => some cur
  | cur, sym :: rest =>
    (d.lookup_transition cur sym).bind (fun nxt => dfa_walk d nxt rest)

theorem DFA.run_from_invalid (d : DFA) (h : d.validate_self = .ok ()) :
    ∀ (w1 : List String) (cur : String), cur ∈ d.states →
      ∀ (x : String) (w2 : List String), (∀ s ∈ w1, s ∈ d.symbols) →
      x ∉ d.symbols →
      d.run_from cur (w1 ++ x :: w2) = .error (.rejectedSymbol x) ∧
      d.run_yield cur (w1 ++ x :: w2) = .error (.rejectedSymbol x) := by
  intro w1
  induction w1 with
  | nil =>
    intro cur hcur x w2 _ hx
    constructor <;>
      simp [DFA.run_from, DFA.run_yield, DFA.validate_input_symbol, hx,
        Bind.bind, Except.bind]
  | cons s rest ih =>
    intro cur hcur x w2 hw1 hx
    have hs : s ∈ d.symbols := hw1 s (List.mem_cons_self s rest)
    obtain ⟨nxt, hlk, hnxt⟩ := DFA.valid_step d h hcur hs
    have ihr := ih nxt hnxt x w2 (fun a ha => hw1 a (List.mem_cons_of_mem _ ha)) hx
    constructor
    · show (do let _ ← d.validate_input_symbol s
               match d.lookup_transition cur s with
               | none => Except.error (.keyError cur)
               | some nxt => d.run_from nxt (rest ++ x :: w2)) = _
      simp [DFA.validate_input_symbol, hs, hlk, Bind.bind, Except.bind, ihr.1]
    · show (do let _ ← d.validate_input_symbol s
               match d.lookup_transition cur s with
               | none => Except.error (.keyError cur)
               | some nxt => do
                 let l ← d.run_yield nxt (rest ++ x :: w2)
                 Except.ok (nxt :: l)) = _
      simp [DFA.validate_input_symbol, hs, hlk, Bind.bind, Except.bind, ihr.2]

theorem DFA.run_from_valid (d : DFA) (h : d.validate_self = .ok ()) :
    ∀ (w : List String) (cur : String), cur ∈ d.states →
      (∀ s ∈ w, s ∈ d.symbols) →
      ∃ stop, dfa_walk d cur w = some stop ∧ stop ∈ d.states ∧
        d.run_from cur w =
          (if stop ∈ d.final_states then .ok stop
           else .error (.rejectedDFA stop)) ∧
        ((∃ l, d.run_yield cur w = .ok l) ↔ stop ∈ d.final_states) ∧
        (stop ∉ d.final_states →
          d.run_yield cur w = .error (.rejectedDFA stop)) := by
  intro w
  induction w with
  | nil =>
    intro cur hcur _
    refine ⟨cur, rfl, hcur, ?_, ?_, ?_⟩
    · rfl
    · by_cases hf : cur ∈ d.final_states <;>
        simp [DFA.run_yield, hf]
    · intro hf
      simp [DFA.run_yield, hf]
  | cons s rest ih =>
    intro cur hcur hw
    have hs : s ∈ d.symbols := hw s (List.mem_cons_self s rest)
    obtain ⟨nxt, hlk, hnxt⟩ := DFA.valid_step d h hcur hs
    obtain ⟨stop, hwalk, hstop, hrun, hyield, hyerr⟩ :=
      ih nxt hnxt (fun a ha => hw a (List.mem_cons_of_mem _ ha))
    refine ⟨stop, ?_, hstop, ?_, ?_, ?_⟩
    · simp [dfa_walk, hlk, hwalk]
    · show (do let _ ← d.validate_input_symbol s
               match d.lookup_transition cur s with
               | none => Except.error (.keyError cur)
               | some nxt => d.run_from nxt rest) = _
      simp [DFA.validate_input_symbol, hs, hlk, Bind.bind, Except.bind, hrun]
    · rw [show d.run_yield cur (s :: rest) =
          (do let _ ← d.validate_input_symbol s
              match d.lookup_transition cur s with
              | none => Except.error (.keyError cur)
              | some nxt => do
                let l ← d.run_yield nxt rest
                Except.ok (nxt :: l)) from rfl]
      simp only [DFA.validate_input_symbol, if_pos hs, hlk]
      constructor
      · rintro ⟨l, hl⟩
        apply hyield.mp
        cases hry : d.run_yield nxt rest with
        | error e =>
          rw [hry] at hl
          exact absurd hl (by simp [Bind.bind, Except.bind])
        | ok l' => exact ⟨l', rfl⟩
      · intro hf
        obtain ⟨l, hl⟩ := hyield.mpr hf
        exact ⟨nxt :: l, by simp [Bind.bind, Except.bind, hl]⟩
    · intro hf
      show (do let _ ← d.validate_input_symbol s
               match d.lookup_transition cur s with
               | none => Except.error (.keyError cur)
               | some nxt => do
                 let l ← d.run_yield nxt rest
                 Except.ok (nxt :: l)) = _
      simp [DFA.validate_input_symbol, hs, hlk, Bind.bind, Except.bind,
        hyerr hf]

/-- C6: on a valid DFA, the acceptance test walks the input from
initial_state; an input symbol outside the alphabet fails immediately with
the invalid-symbol rejection whatever input follows it, and an input over
the alphabet stops at the iterated-transition state, succeeding with that
stop state exactly when it is final and failing with the non-final-stop
error naming it otherwise.  Both the old-generation validate_input and the
generator-based _validate_input_yield behave so. -/
theorem dfa_acceptance_spec (d : DFA) (h : d.validate_self = .ok ()) :
    (∀ (w1 : List String) (x : String) (w2 : List String),
      (∀ s ∈ w1, s ∈ d.symbols) → x ∉ d.symbols →
      d.validate_input (w1 ++ x :: w2) = .error (.rejectedSymbol x) ∧
      d.validate_input_yield (w1 ++ x :: w2) = .error (.rejectedSymbol x)) ∧
    (∀ w : List String, (∀ s ∈ w, s ∈ d.symbols) →
      ∃ stop, dfa_walk d d.initial_state w = some stop ∧
        d.validate_input w =
          (if stop ∈ d.final_states then .ok stop
           else .error (.rejectedDFA stop)) ∧
        ((∃ l, d.validate_input_yield w = .ok l) ↔ stop ∈ d.final_states) ∧
        (stop ∉ d.final_states →
          d.validate_input_yield w = .error (.rejectedDFA stop))) := by
  have hinit := DFA.initial_mem d h
  constructor
  · intro w1 x w2 hw1 hx
    have := DFA.run_from_invalid d h w1 d.initial_state hinit x w2 hw1 hx
    refine ⟨this.1, ?_⟩
    show (do let l ← d.run_yield d.initial_state (w1 ++ x :: w2)
             Except.ok (d.initial_state :: l)) = _
    simp [this.2, Bind.bind, Except.bind]
  · intro w hw
    obtain ⟨stop, hwalk, _, hrun, hyield, hyerr⟩ :=
      DFA.run_from_valid d h w d.initial_state hinit hw
    refine ⟨stop, hwalk, hrun, ?_, ?_⟩
    · rw [show d.validate_input_yield w =
          (do let l ← d.run_yield d.initial_state w
              Except.ok (d.initial_state :: l)) from rfl]
      constructor
      · rintro ⟨l, hl⟩
        apply hyield.mp
        cases hry : d.run_yield d.initial_state w with
        | error e =>
          rw [hry] at hl
          exact absurd hl (by simp [Bind.bind, Except.bind])
        | ok l' => exact ⟨l', rfl⟩
      · intro hf
        obtain ⟨l, hl⟩ := hyield.mpr hf
        exact ⟨d.initial_state :: l, by simp [Bind.bind, Except.bind, hl]⟩
    · intro hf
      show (do let l ← d.run_yield d.initial_state w
               Except.ok (d.initial_state :: l)) = _
      simp [hyerr hf, Bind.bind, Except.bind]

/-- the DFA of spec §8 scenario 1 (parity of 1s). -/
def parityDFA : DFA :=
  ⟨["s1", "s2"], ["0", "1"],
    [("s1", [("0", "s1"), ("1", "s2")]), ("s2", [("0", "s2"), ("1", "s1")])],
    "s1", ["s1"]⟩

/-- C6 witness: the walk specification applied to the parity DFA on an
invalid symbol and on a rejected string. -/
theorem dfa_acceptance_spec_witness :
    parityDFA.validate_input (["1"] ++ "2" :: ["0"]) =
      .error (.rejectedSymbol "2") ∧
    (∃ stop, dfa_walk parityDFA parityDFA.initial_state ["1", "0", "1"] =
        some stop ∧
      parityDFA.validate_input ["1", "0", "1"] =
        (if stop ∈ parityDFA.final_states then .ok stop
         else .error (.rejectedDFA stop)) ∧
      ((∃ l, parityDFA.validate_input_yield ["1", "0", "1"] = .ok l) ↔
        stop ∈ parityDFA.final_states) ∧
      (stop ∉ parityDFA.final_states →
        parityDFA.validate_input_yield ["1", "0", "1"] =
          .error (.rejectedDFA stop))) :=
  ⟨((dfa_acceptance_spec parityDFA (by decide)).1 ["1"] "2" ["0"]
      (by decide) (by decide)).1,
    (dfa_acceptance_spec parityDFA (by decide)).2 ["1", "0", "1"] (by decide)⟩

/-! ### C9: the empty current state set during NFA acceptance -/

/-- C9: once the current state set of the NFA acceptance test is empty, no
error is raised at that point — the empty set is carried through all
remaining alphabet input and the test then fails with the rejection that
reports the (empty) stop set, since the empty set meets no final states;
in general a run returns successfully exactly with a stop set meeting the
final states, and at end of input the rejection reports the full stop
set. -/
theorem nfa_dead_branch_carried :
    (∀ (n : NFA) (fuel : Nat) (w : List String), (∀ s ∈ w, s ∈ n.symbols) →
      n.run_from fuel ∅ w = .error (.rejectedNFA ∅)) ∧
    (∀ (n : NFA) (fuel : Nat) (S : Finset String) (w : List String)
      (r : Finset String), n.run_from fuel S w = .ok r →
      r ∩ n.final_states.toFinset ≠ ∅) ∧
    (∀ (n : NFA) (fuel : Nat) (S : Finset String),
      n.run_from fuel S [] =
        (if S ∩ n.final_states.toFinset = ∅ then .error (.rejectedNFA S)
         else .ok S)) := by
  refine ⟨?_, ?_, ?_⟩
  · intro n fuel w
    induction w with
    | nil =>
      intro _
      simp [NFA.run_from, Finset.empty_inter]
    | cons sym rest ih =>
      intro hw
      have hsym : sym ∈ n.symbols := hw sym (List.mem_cons_self sym rest)
      have hnxt : n.get_next_current_states fuel ∅ sym = .ok ∅ := by
        rw [NFA.get_next_current_states, sortedElems_empty]
        rfl
      show (do let _ ← n.validate_input_symbol sym
               let nxt ← n.get_next_current_states fuel ∅ sym
               n.run_from fuel nxt rest) = _
      simp [NFA.validate_input_symbol, hsym, hnxt, Bind.bind, Except.bind,
        ih (fun a ha => hw a (List.mem_cons_of_mem _ ha))]
  · intro n fuel S w
    induction w generalizing S with
    | nil =>
      intro r h
      by_cases hc : S ∩ n.final_states.toFinset = ∅
      · simp [NFA.run_from, hc] at h
      · simp [NFA.run_from, hc] at h
        rw [← h]
        exact hc
    | cons sym rest ih =>
      intro r h
      by_cases hsym : sym ∈ n.symbols
      · rw [show n.run_from fuel S (sym :: rest) =
            (do let _ ← n.validate_input_symbol sym
                let nxt ← n.get_next_current_states fuel S sym
                n.run_from fuel nxt rest) from rfl] at h
        simp only [NFA.validate_input_symbol, if_pos hsym] at h
        cases hg : n.get_next_current_states fuel S sym with
        | error e =>
          rw [hg] at h
          exact absurd h (by simp [Bind.bind, Except.bind])
        | ok nxt =>
          rw [hg] at h
          simp only [Bind.bind, Except.bind] at h
          exact ih nxt r h
      · rw [show n.run_from fuel S (sym :: rest) =
            (do let _ ← n.validate_input_symbol sym
                let nxt ← n.get_next_current_states fuel S sym
                n.run_from fuel nxt rest) from rfl] at h
        simp [NFA.validate_input_symbol, hsym, Bind.bind, Except.bind] at h
  · intro n fuel S
    rfl

/-- C9 witness: the carried empty set on epsNFA over its alphabet, and a
successful run whose stop set meets the final states. -/
theorem nfa_dead_branch_carried_witness :
    epsNFA.run_from 10 ∅ ["z"] = .error (.rejectedNFA ∅) ∧
    ¬ (({"q"} : Finset String) ∩ epsNFA.final_states.toFinset = ∅) :=
  ⟨nfa_dead_branch_carried.1 epsNFA 10 ["z"] (by decide),
    nfa_dead_branch_carried.2.1 epsNFA 10 {"q"} ["z"] {"q"} (by decide)⟩

/-! ### C10: acceptance of the empty input -/

/-- C10: on a validly constructed automaton, the acceptance test on the
empty input succeeds exactly when the initial state is final, and on
success the DFA test returns the initial state (the yield variant yields
only it) while the NFA test returns the bare singleton of the initial
state — no transition, epsilon included, is consulted first. -/
theorem empty_input_acceptance (d : DFA) (n : NFA) (fuel : Nat)
    (hd : d.validate_self = .ok ()) (hn : n.validate_automaton = .ok ()) :
    (d.validate_input [] = .ok d.initial_state ↔
      d.initial_state ∈ d.final_states) ∧
    (d.validate_input_yield [] = .ok [d.initial_state] ↔
      d.initial_state ∈ d.final_states) ∧
    (n.validate_input fuel [] = .ok {n.initial_state} ↔
      n.initial_state ∈ n.final_states) := by
  refine ⟨?_, ?_, ?_⟩
  · by_cases hf : d.initial_state ∈ d.final_states <;>
      simp [DFA.validate_input, DFA.run_from, hf]
  · by_cases hf : d.initial_state ∈ d.final_states <;>
      simp [DFA.validate_input_yield, DFA.run_yield, hf, Bind.bind,
        Except.bind]
  · by_cases hf : n.initial_state ∈ n.final_states
    · have hne : ¬ (({n.initial_state} : Finset String) ∩
          n.final_states.toFinset = ∅) := by
        rw [Finset.singleton_inter_of_mem (List.mem_toFinset.mpr hf)]
        simp
      simp [NFA.validate_input, NFA.run_from, hne, hf]
    · have heq : ({n.initial_state} : Finset String) ∩
          n.final_states.toFinset = ∅ :=
        Finset.singleton_inter_of_not_mem
          (fun hm => hf (List.mem_toFinset.mp hm))
      simp [NFA.validate_input, NFA.run_from, heq, hf]

/-- C10 witness: the parity DFA (initial state final) and epsNFA (initial
state not final) on the empty input. -/
theorem empty_input_acceptance_witness :
    (parityDFA.validate_input [] = .ok parityDFA.initial_state ↔
      parityDFA.initial_state ∈ parityDFA.final_states) ∧
    (epsNFA.validate_input 10 [] = .ok {epsNFA.initial_state} ↔
      epsNFA.initial_state ∈ epsNFA.final_states) :=
  ⟨(empty_input_acceptance parityDFA epsNFA 10 (by decide) (by decide)).1,
    (empty_input_acceptance parityDFA epsNFA 10 (by decide) (by decide)).2.2⟩

/-! ### C8: defensive copies at construction

Construction from formal parameters is re-embedded at heap level to make
mutation of the caller's collections expressible: a store maps references
(allocation indices) to Python objects, the caller passes references, and
the constructor allocates fresh copies exactly where the code calls
`set(...)`, `.copy()`, `copy.deepcopy(...)` or `_clone_transitions`.
Mutating the caller's objects afterwards is any store change outside the
freshly allocated window. -/

/-- a Python heap object: a set of strings, a symbol table of strings (a
DFA inner transition dict), or a string-keyed dict of references to other
heap objects. -/
inductive PyObj where
  | oSet (elems : List String)
  | oTbl (entries : List (String × String))
  | oMap (entries : List (String × Nat))
  deriving DecidableEq

/-- the heap: objects indexed by allocation order. -/
abbrev Store := List PyObj

/-- the length of the heap, the next free reference. -/
def Store.size (s : Store) : Nat :=
  List.length s

/-- dereference. -/
def Store.get? (s : Store) (r : Nat) : Option PyObj :=
  List.get? s r

/-- allocate a fresh object at the next free reference. -/
def alloc (s : Store) (v : PyObj) : Store × Nat :=
  (s ++ [v], s.size)

def readSet (s : Store) (r : Nat) : Except Err (List String) :=
  match s.get? r with
  | some (.oSet l) => .ok l
  | _ => .error .typeError

def readTbl (s : Store) (r : Nat) : Except Err (List (String × String)) :=
  match s.get? r with
  | some (.oTbl l) => .ok l
  | _ => .error .typeError

def readMap (s : Store) (r : Nat) : Except Err (List (String × Nat)) :=
  match s.get? r with
  | some (.oMap l) => .ok l
  | _ => .error .typeError

/-- read a DFA transition dict through its outer entries. -/
def readDTransEntries (s : Store) :
    List (String × Nat) → Except Err (List (String × List (String × String)))
  | [] => .ok []
  | (k, r) :: rest => do
    let tbl ← readTbl s r
    let tail ← readDTransEntries s rest
    .ok ((k, tbl) :: tail)

/-- read a DFA transition dict (outer dict of references to symbol
tables). -/
def readDTrans (s : Store) (r : Nat) :
    Except Err (List (String × List (String × String))) := do
  readDTransEntries s (← readMap s r)

/-- read an NFA inner dict (symbol ↦ reference to a destination set). -/
def readSetEntries (s : Store) :
    List (String × Nat) → Except Err (List (String × List String))
  | [] => .ok []
  | (k, r) :: rest => do
    let v ← readSet s r
    let tail ← readSetEntries s rest
    .ok ((k, v) :: tail)

def readNPaths (s : Store) (r : Nat) :
    Except Err (List (String × List String)) := do
  readSetEntries s (← readMap s r)

/-- read an NFA transition dict through its outer entries. -/
def readNTransEntries (s : Store) :
    List (String × Nat) →
      Except Err (List (String × List (String × List String)))
  | [] => .ok []
  | (k, r) :: rest => do
    let paths ← readNPaths s r
    let tail ← readNTransEntries s rest
    .ok ((k, paths) :: tail)

def readNTrans (s : Store) (r : Nat) :
    Except Err (List (String × List (String × List String))) := do
  readNTransEntries s (← readMap s r)

/-- allocate fresh copies of the inner symbol tables of a DFA transition
dict (`copy.deepcopy(transitions)` allocates a fresh inner dict per
state). -/
def allocTbls (s : Store) :
    List (String × List (String × String)) → Store × List (String × Nat)
  | [] => (s, [])
  | (k, tbl) :: rest =>
    let (s₁, r) := alloc s (.oTbl tbl)
    let (s₂, es) := allocTbls s₁ rest
    (s₂, (k, r) :: es)

/-- allocate fresh copies of the destination sets of one NFA state
(`set(transitions[start_state][symbol])` in _clone_transitions). -/
def allocSets (s : Store) :
    List (String × List String) → Store × List (String × Nat)
  | [] => (s, [])
  | (k, v) :: rest =>
    let (s₁, r) := alloc s (.oSet v)
    let (s₂, es) := allocSets s₁ rest
    (s₂, (k, r) :: es)

/-- allocate fresh inner dicts and destination sets for all NFA states
(the nested loops of NFA._clone_transitions, automata/nfa.py:46-58). -/
def allocNPaths (s : Store) :
    List (String × List (String × List String)) → Store × List (String × Nat)
  | [] => (s, [])
  | (k, paths) :: rest =>
    let (s₁, es) := allocSets s paths
    let (s₂, r) := alloc s₁ (.oMap es)
    let (s₃, out) := allocNPaths s₂ rest
    (s₃, (k, r) :: out)

/-- the heap references a constructed DFA holds. -/
structure DFARefs where
  statesR : Nat
  symbolsR : Nat
  transR : Nat
  initialState : String
  finalR : Nat
  deriving DecidableEq

/-- the heap references a constructed NFA holds. -/
structure NFARefs where
  statesR : Nat
  symbolsR : Nat
  transR : Nat
  initialState : String
  finalR : Nat
  deriving DecidableEq

/-- embeds DFA._init_from_formal_params (automata/fa/dfa.py:24-32) at heap
level: read the caller's collections, allocate fresh copies of each
(states.copy(), input_symbols.copy(), copy.deepcopy(transitions),
final_states.copy(); the initial state is an immutable string), run
validate_self on the copied contents, and hold only the fresh
references. -/
def DFA.init_from_formal_params_store (s₀ : Store)
    (statesR symbolsR transR : Nat) (initialState : String) (finalR : Nat) :
    Except Err (Store × DFARefs) := do
  let stv ← readSet s₀ statesR
  let syv ← readSet s₀ symbolsR
  let trv ← readDTrans s₀ transR
  let fiv ← readSet s₀ finalR
  let (s₁, statesR') := alloc s₀ (.oSet stv)
  let (s₂, symbolsR') := alloc s₁ (.oSet syv)
  let (s₃, innerEs) := allocTbls s₂ trv
  let (s₄, transR') := alloc s₃ (.oMap innerEs)
  let (s₅, finalR') := alloc s₄ (.oSet fiv)
  let _ ← DFA.validate_self ⟨stv, syv, trv, initialState, fiv⟩
  .ok (s₅, ⟨statesR', symbolsR', transR', initialState, finalR'⟩)

/-- embeds NFA.__init__ from formal parameters (automata/nfa.py:17-23) at
heap level: set copies of states, symbols and final states,
_clone_transitions for the nested table, then validate_automaton on the
copied contents. -/
def NFA.init_from_formal_params_store (s₀ : Store)
    (statesR symbolsR transR : Nat) (initialState : String) (finalR : Nat) :
    Except Err (Store × NFARefs) := do
  let stv ← readSet s₀ statesR
  let syv ← readSet s₀ symbolsR
  let trv ← readNTrans s₀ transR
  let fiv ← readSet s₀ finalR
  let (s₁, statesR') := alloc s₀ (.oSet stv)
  let (s₂, symbolsR') := alloc s₁ (.oSet syv)
  let (s₃, innerEs) := allocNPaths s₂ trv
  let (s₄, transR') := alloc s₃ (.oMap innerEs)
  let (s₅, finalR') := alloc s₄ (.oSet fiv)
  let _ ← NFA.validate_automaton ⟨stv, syv, trv, initialState, fiv⟩
  .ok (s₅, ⟨statesR', symbolsR', transR', initialState, finalR'⟩)

/-- read a constructed DFA's fields back through its references. -/
def DFA.read_store (s : Store) (R : DFARefs) : Except Err DFA := do
  let stv ← readSet s R.statesR
  let syv ← readSet s R.symbolsR
  let trv ← readDTrans s R.transR
  let fiv ← readSet s R.finalR
  .ok ⟨stv, syv, trv, R.initialState, fiv⟩

/-- read a constructed NFA's fields back through its references. -/
def NFA.read_store (s : Store) (R : NFARefs) : Except Err NFA := do
  let stv ← readSet s R.statesR
  let syv ← readSet s R.symbolsR
  let trv ← readNTrans s R.transR
  let fiv ← readSet s R.finalR
  .ok ⟨stv, syv, trv, R.initialState, fiv⟩

/-- DFA acceptance through the heap: the run reads only the automaton's
own objects, none of which is mutated during a run, so reading them once
up front is equivalent. -/
def DFA.validate_input_store (s : Store) (R : DFARefs) (w : List String) :
    Except Err String := do
  let d ← DFA.read_store s R
  d.validate_input w

/-- NFA acceptance through the heap. -/
def NFA.validate_input_store (s : Store) (R : NFARefs) (fuel : Nat)
    (w : List String) : Except Err (Finset String) := do
  let n ← NFA.read_store s R
  n.validate_input fuel w

/-- stores agree on all references of the window [lo, hi): a mutation of
the caller's collections only touches references outside the window of
objects freshly allocated by the constructor. -/
def Agrees (s₁ s₂ : Store) (lo hi : Nat) : Prop :=
  ∀ r, r < hi → lo ≤ r → s₂.get? r = s₁.get? r

instance (s₁ s₂ : Store) (lo hi : Nat) : Decidable (Agrees s₁ s₂ lo hi) :=
  Nat.decidableBallLT hi fun r _ => lo ≤ r → s₂.get? r = s₁.get? r

theorem store_get_append_left (s t : Store) (r : Nat) (h : r < s.size) :
    (s ++ t).get? r = s.get? r := by
  induction s generalizing r with
  | nil => cases h
  | cons x xs ih =>
    cases r with
    | zero => rfl
    | succ r' => exact ih r' (Nat.lt_of_succ_lt_succ h)

theorem store_get_at (s : Store) (v : PyObj) (t : Store) :
    (s ++ v :: t).get? s.size = some v := by
  induction s with
  | nil => rfl
  | cons x xs ih => exact ih

theorem store_size_append (s t : Store) : (s ++ t).size = s.size + t.size :=
  List.length_append s t

/-- the outer entries of a copied DFA transition dict point, inside the
window [lo, hi), at the copied symbol tables. -/
def TblOK (s : Store) (lo hi : Nat) :
    List (String × Nat) → List (String × List (String × String)) → Prop
  | [], [] => True
  | (k, r) :: es, (k', tbl) :: l =>
    k = k' ∧ lo ≤ r ∧ r < hi ∧ s.get? r = some (.oTbl tbl) ∧ TblOK s lo hi es l
  | _, _ => False

/-- the inner entries of a copied NFA state dict point, inside the window
[lo, hi), at the copied destination sets. -/
def PathsOK (s : Store) (lo hi : Nat) :
    List (String × Nat) → List (String × List String) → Prop
  | [], [] => True
  | (k, r) :: es, (k', v) :: l =>
    k = k' ∧ lo ≤ r ∧ r < hi ∧ s.get? r = some (.oSet v) ∧ PathsOK s lo hi es l
  | _, _ => False

/-- the outer entries of a copied NFA transition dict point, inside the
window [lo, hi), at copied inner dicts of copied destination sets. -/
def NTransOK (s : Store) (lo hi : Nat) :
    List (String × Nat) → List (String × List (String × List String)) → Prop
  | [], [] => True
  | (k, r) :: es, (k', paths) :: l =>
    k = k' ∧ lo ≤ r ∧ r < hi ∧
      (∃ pes, s.get? r = some (.oMap pes) ∧ PathsOK s lo hi pes paths) ∧
      NTransOK s lo hi es l
  | _, _ => False

theorem TblOK_mono {s : Store} {lo hi lo' hi' : Nat} (hlo : lo' ≤ lo)
    (hhi : hi ≤ hi') :
    ∀ {es l}, TblOK s lo hi es l → TblOK s lo' hi' es l := by
  intro es
  induction es with
  | nil => intro l h; cases l with
    | nil => trivial
    | cons p l' => cases h
  | cons p rest ih =>
    intro l h
    obtain ⟨k, r⟩ := p
    cases l with
    | nil => cases h
    | cons q l' =>
      obtain ⟨k', tbl⟩ := q
      obtain ⟨hk, h1, h2, h3, h4⟩ := h
      exact ⟨hk, Nat.le_trans hlo h1, Nat.lt_of_lt_of_le h2 hhi, h3, ih h4⟩

theorem TblOK_extend {s t : Store} {lo hi : Nat} (hs : hi ≤ s.size) :
    ∀ {es l}, TblOK s lo hi es l → TblOK (s ++ t) lo hi es l := by
  intro es
  induction es with
  | nil => intro l h; cases l with
    | nil => trivial
    | cons p l' => cases h
  | cons p rest ih =>
    intro l h
    obtain ⟨k, r⟩ := p
    cases l with
    | nil => cases h
    | cons q l' =>
      obtain ⟨k', tbl⟩ := q
      obtain ⟨hk, h1, h2, h3, h4⟩ := h
      refine ⟨hk, h1, h2, ?_, ih h4⟩
      rw [store_get_append_left s t r (Nat.lt_of_lt_of_le h2 hs)]
      exact h3

theorem TblOK_agrees {s₁ s₂ : Store} {lo hi : Nat}
    (hag : Agrees s₁ s₂ lo hi) :
    ∀ {es l}, TblOK s₁ lo hi es l → TblOK s₂ lo hi es l := by
  intro es
  induction es with
  | nil => intro l h; cases l with
    | nil => trivial
    | cons p l' => cases h
  | cons p rest ih =>
    intro l h
    obtain ⟨k, r⟩ := p
    cases l with
    | nil => cases h
    | cons q l' =>
      obtain ⟨k', tbl⟩ := q
      obtain ⟨hk, h1, h2, h3, h4⟩ := h
      exact ⟨hk, h1, h2, (hag r h2 h1).trans h3, ih h4⟩

theorem PathsOK_mono {s : Store} {lo hi lo' hi' : Nat} (hlo : lo' ≤ lo)
    (hhi : hi ≤ hi') :
    ∀ {es l}, PathsOK s lo hi es l → PathsOK s lo' hi' es l := by
  intro es
  induction es with
  | nil => intro l h; cases l with
    | nil => trivial
    | cons p l' => cases h
  | cons p rest ih =>
    intro l h
    obtain ⟨k, r⟩ := p
    cases l with
    | nil => cases h
    | cons q l' =>
      obtain ⟨k', v⟩ := q
      obtain ⟨hk, h1, h2, h3, h4⟩ := h
      exact ⟨hk, Nat.le_trans hlo h1, Nat.lt_of_lt_of_le h2 hhi, h3, ih h4⟩

theorem PathsOK_extend {s t : Store} {lo hi : Nat} (hs : hi ≤ s.size) :
    ∀ {es l}, PathsOK s lo hi es l → PathsOK (s ++ t) lo hi es l := by
  intro es
  induction es with
  | nil => intro l h; cases l with
    | nil => trivial
    | cons p l' => cases h
  | cons p rest ih =>
    intro l h
    obtain ⟨k, r⟩ := p
    cases l with
    | nil => cases h
    | cons q l' =>
      obtain ⟨k', v⟩ := q
      obtain ⟨hk, h1, h2, h3, h4⟩ := h
      refine ⟨hk, h1, h2, ?_, ih h4⟩
      rw [store_get_append_left s t r (Nat.lt_of_lt_of_le h2 hs)]
      exact h3

theorem PathsOK_agrees {s₁ s₂ : Store} {lo hi : Nat}
    (hag : Agrees s₁ s₂ lo hi) :
    ∀ {es l}, PathsOK s₁ lo hi es l → PathsOK s₂ lo hi es l := by
  intro es
  induction es with
  | nil => intro l h; cases l with
    | nil => trivial
    | cons p l' => cases h
  | cons p rest ih =>
    intro l h
    obtain ⟨k, r⟩ := p
    cases l with
    | nil => cases h
    | cons q l' =>
      obtain ⟨k', v⟩ := q
      obtain ⟨hk, h1, h2, h3, h4⟩ := h
      exact ⟨hk, h1, h2, (hag r h2 h1).trans h3, ih h4⟩

theorem NTransOK_mono {s : Store} {lo hi lo' hi' : Nat} (hlo : lo' ≤ lo)
    (hhi : hi ≤ hi') :
    ∀ {es l}, NTransOK s lo hi es l → NTransOK s lo' hi' es l := by
  intro es
  induction es with
  | nil => intro l h; cases l with
    | nil => trivial
    | cons p l' => cases h
  | cons p rest ih =>
    intro l h
    obtain ⟨k, r⟩ := p
    cases l with
    | nil => cases h
    | cons q l' =>
      obtain ⟨k', paths⟩ := q
      obtain ⟨hk, h1, h2, ⟨pes, h3, h3'⟩, h4⟩ := h
      exact ⟨hk, Nat.le_trans hlo h1, Nat.lt_of_lt_of_le h2 hhi,
        ⟨pes, h3, PathsOK_mono hlo hhi h3'⟩, ih h4⟩

theorem NTransOK_extend {s t : Store} {lo hi : Nat} (hs : hi ≤ s.size) :
    ∀ {es l}, NTransOK s lo hi es l → NTransOK (s ++ t) lo hi es l := by
  intro es
  induction es with
  | nil => intro l h; cases l with
    | nil => trivial
    | cons p l' => cases h
  | cons p rest ih =>
    intro l h
    obtain ⟨k, r⟩ := p
    cases l with
    | nil => cases h
    | cons q l' =>
      obtain ⟨k', paths⟩ := q
      obtain ⟨hk, h1, h2, ⟨pes, h3, h3'⟩, h4⟩ := h
      refine ⟨hk, h1, h2, ⟨pes, ?_, PathsOK_extend hs h3'⟩, ih h4⟩
      rw [store_get_append_left s t r (Nat.lt_of_lt_of_le h2 hs)]
      exact h3

theorem NTransOK_agrees {s₁ s₂ : Store} {lo hi : Nat}
    (hag : Agrees s₁ s₂ lo hi) :
    ∀ {es l}, NTransOK s₁ lo hi es l → NTransOK s₂ lo hi es l := by
  intro es
  induction es with
  | nil => intro l h; cases l with
    | nil => trivial
    | cons p l' => cases h
  | cons p rest ih =>
    intro l h
    obtain ⟨k, r⟩ := p
    cases l with
    | nil => cases h
    | cons q l' =>
      obtain ⟨k', paths⟩ := q
      obtain ⟨hk, h1, h2, ⟨pes, h3, h3'⟩, h4⟩ := h
      exact ⟨hk, h1, h2, ⟨pes, (hag r h2 h1).trans h3,
        PathsOK_agrees hag h3'⟩, ih h4⟩

theorem readDTransEntries_of_TblOK {s : Store} {lo hi : Nat} :
    ∀ {es l}, TblOK s lo hi es l → readDTransEntries s es = .ok l := by
  intro es
  induction es with
  | nil => intro l h; cases l with
    | nil => rfl
    | cons p l' => cases h
  | cons p rest ih =>
    intro l h
    obtain ⟨k, r⟩ := p
    cases l with
    | nil => cases h
    | cons q l' =>
      obtain ⟨k', tbl⟩ := q
      obtain ⟨hk, -, -, h3, h4⟩ := h
      subst hk
      show (do let tbl ← readTbl s r
               let tail ← readDTransEntries s rest
               Except.ok ((k, tbl) :: tail)) = _
      rw [show readTbl s r = .ok tbl by rw [readTbl, h3]]
      simp [Bind.bind, Except.bind, ih h4]

theorem readSetEntries_of_PathsOK {s : Store} {lo hi : Nat} :
    ∀ {es l}, PathsOK s lo hi es l → readSetEntries s es = .ok l := by
  intro es
  induction es with
  | nil => intro l h; cases l with
    | nil => rfl
    | cons p l' => cases h
  | cons p rest ih =>
    intro l h
    obtain ⟨k, r⟩ := p
    cases l with
    | nil => cases h
    | cons q l' =>
      obtain ⟨k', v⟩ := q
      obtain ⟨hk, -, -, h3, h4⟩ := h
      subst hk
      show (do let v ← readSet s r
               let tail ← readSetEntries s rest
               Except.ok ((k, v) :: tail)) = _
      rw [show readSet s r = .ok v by rw [readSet, h3]]
      simp [Bind.bind, Except.bind, ih h4]

theorem readNTransEntries_of_NTransOK {s : Store} {lo hi : Nat} :
    ∀ {es l}, NTransOK s lo hi es l → readNTransEntries s es = .ok l := by
  intro es
  induction es with
  | nil => intro l h; cases l with
    | nil => rfl
    | cons p l' => cases h
  | cons p rest ih =>
    intro l h
    obtain ⟨k, r⟩ := p
    cases l with
    | nil => cases h
    | cons q l' =>
      obtain ⟨k', paths⟩ := q
      obtain ⟨hk, -, -, ⟨pes, h3, h3'⟩, h4⟩ := h
      subst hk
      show (do let paths ← readNPaths s r
               let tail ← readNTransEntries s rest
               Except.ok ((k, paths) :: tail)) = _
      have hp : readNPaths s r = .ok paths := by
        show (do readSetEntries s (← readMap s r)) = _
        rw [show readMap s r = .ok pes by rw [readMap, h3]]
        simp [Bind.bind, Except.bind, readSetEntries_of_PathsOK h3']
      rw [hp]
      simp [Bind.bind, Except.bind, ih h4]

theorem allocTbls_spec (l : List (String × List (String × String))) :
    ∀ s : Store,
      (∃ t, (allocTbls s l).1 = s ++ t) ∧
      TblOK (allocTbls s l).1 s.size (allocTbls s l).1.size
        (allocTbls s l).2 l := by
  induction l with
  | nil =>
    intro s
    exact ⟨⟨[], by simp [allocTbls]⟩, trivial⟩
  | cons p rest ih =>
    intro s
    obtain ⟨k, tbl⟩ := p
    obtain ⟨⟨t', ht'⟩, hTbl⟩ := ih (s ++ [PyObj.oTbl tbl])
    have hout : allocTbls s ((k, tbl) :: rest) =
        ((allocTbls (s ++ [PyObj.oTbl tbl]) rest).1,
          (k, s.size) :: (allocTbls (s ++ [PyObj.oTbl tbl]) rest).2) := by
      simp [allocTbls, alloc]
    rw [hout]
    have hsize1 : (s ++ [PyObj.oTbl tbl]).size = s.size + 1 := by
      simp [Store.size]
    constructor
    · exact ⟨PyObj.oTbl tbl :: t', by rw [ht']; simp⟩
    · show TblOK _ _ _ ((k, s.size) :: _) ((k, tbl) :: rest)
      refine ⟨rfl, Nat.le_refl _, ?_, ?_, ?_⟩
      · rw [ht', store_size_append, hsize1]
        omega
      · rw [ht']
        have : (s ++ [PyObj.oTbl tbl]) ++ t' = s ++ (PyObj.oTbl tbl :: t') := by
          simp
        rw [this]
        exact store_get_at s _ t'
      · exact TblOK_mono (by omega) (Nat.le_refl _) hTbl

theorem allocSets_spec (l : List (String × List String)) :
    ∀ s : Store,
      (∃ t, (allocSets s l).1 = s ++ t) ∧
      PathsOK (allocSets s l).1 s.size (allocSets s l).1.size
        (allocSets s l).2 l := by
  induction l with
  | nil =>
    intro s
    exact ⟨⟨[], by simp [allocSets]⟩, trivial⟩
  | cons p rest ih =>
    intro s
    obtain ⟨k, v⟩ := p
    obtain ⟨⟨t', ht'⟩, hOk⟩ := ih (s ++ [PyObj.oSet v])
    have hout : allocSets s ((k, v) :: rest) =
        ((allocSets (s ++ [PyObj.oSet v]) rest).1,
          (k, s.size) :: (allocSets (s ++ [PyObj.oSet v]) rest).2) := by
      simp [allocSets, alloc]
    rw [hout]
    have hsize1 : (s ++ [PyObj.oSet v]).size = s.size + 1 := by
      simp [Store.size]
    constructor
    · exact ⟨PyObj.oSet v :: t', by rw [ht']; simp⟩
    · show PathsOK _ _ _ ((k, s.size) :: _) ((k, v) :: rest)
      refine ⟨rfl, Nat.le_refl _, ?_, ?_, ?_⟩
      · rw [ht', store_size_append, hsize1]
        omega
      · rw [ht']
        have : (s ++ [PyObj.oSet v]) ++ t' = s ++ (PyObj.oSet v :: t') := by
          simp
        rw [this]
        exact store_get_at s _ t'
      · exact PathsOK_mono (by omega) (Nat.le_refl _) hOk

theorem allocNPaths_spec (l : List (String × List (String × List String))) :
    ∀ s : Store,
      (∃ t, (allocNPaths s l).1 = s ++ t) ∧
      NTransOK (allocNPaths s l).1 s.size (allocNPaths s l).1.size
        (allocNPaths s l).2 l := by
  induction l with
  | nil =>
    intro s
    exact ⟨⟨[], by simp [allocNPaths]⟩, trivial⟩
  | cons p rest ih =>
    intro s
    obtain ⟨k, paths⟩ := p
    obtain ⟨⟨t₁, ht₁⟩, hPaths⟩ := allocSets_spec paths s
    obtain ⟨⟨t₃, ht₃⟩, hN⟩ :=
      ih ((allocSets s paths).1 ++ [PyObj.oMap (allocSets s paths).2])
    have hout : allocNPaths s ((k, paths) :: rest) =
        ((allocNPaths ((allocSets s paths).1 ++
            [PyObj.oMap (allocSets s paths).2]) rest).1,
          (k, (allocSets s paths).1.size) ::
            (allocNPaths ((allocSets s paths).1 ++
              [PyObj.oMap (allocSets s paths).2]) rest).2) := by
      simp [allocNPaths, alloc]
    rw [hout]
    have hs1 : s.size ≤ (allocSets s paths).1.size := by
      rw [ht₁, store_size_append]
      omega
    have hs2 : ((allocSets s paths).1 ++
        [PyObj.oMap (allocSets s paths).2]).size =
        (allocSets s paths).1.size + 1 := by
      simp [Store.size]
    constructor
    · refine ⟨t₁ ++ (PyObj.oMap (allocSets s paths).2 :: t₃), ?_⟩
      rw [ht₃, ht₁]
      simp
    · show NTransOK _ _ _ ((k, (allocSets s paths).1.size) :: _)
        ((k, paths) :: rest)
      have hfin : (allocNPaths ((allocSets s paths).1 ++
          [PyObj.oMap (allocSets s paths).2]) rest).1 =
          (allocSets s paths).1 ++
            (PyObj.oMap (allocSets s paths).2 :: t₃) := by
        rw [ht₃]
        simp
      refine ⟨rfl, hs1, ?_, ?_, ?_⟩
      · rw [hfin, store_size_append]
        simp [Store.size]
      · refine ⟨(allocSets s paths).2, ?_, ?_⟩
        · rw [hfin]
          exact store_get_at _ _ _
        · have h1 : PathsOK ((allocSets s paths).1 ++
              (PyObj.oMap (allocSets s paths).2 :: t₃))
              s.size (allocSets s paths).1.size
              (allocSets s paths).2 paths :=
            PathsOK_extend (Nat.le_refl _) hPaths
          rw [hfin]
          refine PathsOK_mono (Nat.le_refl _) ?_ h1
          rw [store_size_append]
          omega
      · rw [hfin]
        rw [hfin] at hN
        refine NTransOK_mono ?_ (Nat.le_refl _) hN
        rw [hs2]
        omega

theorem DFA.store_construction_immutable
    (s₀ : Store) (a b c : Nat) (i : String) (f : Nat) (sOut : Store)
    (R : DFARefs) (sm : Store)
    (h : DFA.init_from_formal_params_store s₀ a b c i f = .ok (sOut, R))
    (hag : Agrees sOut sm s₀.size sOut.size) :
    DFA.read_store sm R = DFA.read_store sOut R ∧
    (∃ d, DFA.read_store sOut R = .ok d) ∧
    (∀ w, DFA.validate_input_store sm R w = DFA.validate_input_store sOut R w) := by
  unfold DFA.init_from_formal_params_store at h
  cases h1 : readSet s₀ a with
  | error e => rw [h1] at h; simp [Bind.bind, Except.bind] at h
  | ok stv =>
  rw [h1] at h
  simp only [Bind.bind, Except.bind] at h
  cases h2 : readSet s₀ b with
  | error e => rw [h2] at h; simp at h
  | ok syv =>
  rw [h2] at h
  simp only at h
  cases h3 : readDTrans s₀ c with
  | error e => rw [h3] at h; simp at h
  | ok trv =>
  rw [h3] at h
  simp only at h
  cases h4 : readSet s₀ f with
  | error e => rw [h4] at h; simp at h
  | ok fiv =>
  rw [h4] at h
  simp only [alloc] at h
  rcases hA : allocTbls ((s₀ ++ [PyObj.oSet stv]) ++ [PyObj.oSet syv]) trv
    with ⟨s₃, innerEs⟩
  rw [hA] at h
  simp only at h
  cases hv : DFA.validate_self ⟨stv, syv, trv, i, fiv⟩ with
  | error e => rw [hv] at h; simp at h
  | ok u =>
  rw [hv] at h
  simp only [Except.ok.injEq, Prod.mk.injEq] at h
  obtain ⟨hS, hR⟩ := h
  subst hS
  subst hR
  have hspec := allocTbls_spec trv ((s₀ ++ [PyObj.oSet stv]) ++ [PyObj.oSet syv])
  rw [hA] at hspec
  dsimp only at hspec
  obtain ⟨⟨t, ht⟩, hTbl⟩ := hspec
  have hshape1 : ((s₃ ++ [PyObj.oMap innerEs]) ++ [PyObj.oSet fiv]) =
      s₀ ++ (PyObj.oSet stv :: (PyObj.oSet syv ::
        (t ++ (PyObj.oMap innerEs :: (PyObj.oSet fiv :: []))))) := by
    rw [ht]; simp
  have hshape2 : ((s₃ ++ [PyObj.oMap innerEs]) ++ [PyObj.oSet fiv]) =
      (s₀ ++ [PyObj.oSet stv]) ++ (PyObj.oSet syv ::
        (t ++ (PyObj.oMap innerEs :: (PyObj.oSet fiv :: [])))) := by
    rw [ht]; simp
  have hshape3 : ((s₃ ++ [PyObj.oMap innerEs]) ++ [PyObj.oSet fiv]) =
      s₃ ++ (PyObj.oMap innerEs :: (PyObj.oSet fiv :: [])) := by
    simp
  have hshape4 : ((s₃ ++ [PyObj.oMap innerEs]) ++ [PyObj.oSet fiv]) =
      (s₃ ++ [PyObj.oMap innerEs]) ++ (PyObj.oSet fiv :: []) := by
    simp
  have G1 : ((s₃ ++ [PyObj.oMap innerEs]) ++ [PyObj.oSet fiv]).get? s₀.size =
      some (PyObj.oSet stv) := by
    rw [hshape1]; exact store_get_at _ _ _
  have G2 : ((s₃ ++ [PyObj.oMap innerEs]) ++ [PyObj.oSet fiv]).get?
      (s₀ ++ [PyObj.oSet stv]).size = some (PyObj.oSet syv) := by
    rw [hshape2]; exact store_get_at _ _ _
  have G3 : ((s₃ ++ [PyObj.oMap innerEs]) ++ [PyObj.oSet fiv]).get? s₃.size =
      some (PyObj.oMap innerEs) := by
    rw [hshape3]; exact store_get_at _ _ _
  have G4 : ((s₃ ++ [PyObj.oMap innerEs]) ++ [PyObj.oSet fiv]).get?
      (s₃ ++ [PyObj.oMap innerEs]).size = some (PyObj.oSet fiv) := by
    rw [hshape4]; exact store_get_at _ _ _
  have hsz3 : s₃.size = s₀.size + 2 + t.length := by
    rw [ht]
    simp [Store.size]
    omega
  have hszOut : ((s₃ ++ [PyObj.oMap innerEs]) ++ [PyObj.oSet fiv]).size =
      s₃.size + 2 := by
    simp [Store.size]
  have hsz1 : (s₀ ++ [PyObj.oSet stv]).size = s₀.size + 1 := by
    simp [Store.size]
  have hsz4 : (s₃ ++ [PyObj.oMap innerEs]).size = s₃.size + 1 := by
    simp [Store.size]
  have hTblOut : TblOK ((s₃ ++ [PyObj.oMap innerEs]) ++ [PyObj.oSet fiv])
      s₀.size ((s₃ ++ [PyObj.oMap innerEs]) ++ [PyObj.oSet fiv]).size
      innerEs trv := by
    have h1' : TblOK (s₃ ++ (PyObj.oMap innerEs :: (PyObj.oSet fiv :: [])))
        ((s₀ ++ [PyObj.oSet stv]) ++ [PyObj.oSet syv]).size s₃.size
        innerEs trv := TblOK_extend (Nat.le_refl _) hTbl
    rw [← hshape3] at h1'
    refine TblOK_mono ?_ ?_ h1'
    · simp [Store.size]
    · omega

  have hTblSm : TblOK sm s₀.size
      ((s₃ ++ [PyObj.oMap innerEs]) ++ [PyObj.oSet fiv]).size innerEs trv :=
    TblOK_agrees hag hTblOut
  have hRead : DFA.read_store ((s₃ ++ [PyObj.oMap innerEs]) ++ [PyObj.oSet fiv])
      ⟨s₀.size, (s₀ ++ [PyObj.oSet stv]).size, s₃.size, i,
        (s₃ ++ [PyObj.oMap innerEs]).size⟩ = .ok ⟨stv, syv, trv, i, fiv⟩ := by
    show (do
      let stv' ← readSet _ _
      let syv' ← readSet _ _
      let trv' ← readDTrans _ _
      let fiv' ← readSet _ _
      Except.ok (⟨stv', syv', trv', _, fiv'⟩ : DFA)) = _
    rw [show readSet ((s₃ ++ [PyObj.oMap innerEs]) ++ [PyObj.oSet fiv])
        s₀.size = .ok stv from by rw [readSet, G1]]
    rw [show readSet ((s₃ ++ [PyObj.oMap innerEs]) ++ [PyObj.oSet fiv])
        (s₀ ++ [PyObj.oSet stv]).size = .ok syv from by rw [readSet, G2]]
    rw [show readDTrans ((s₃ ++ [PyObj.oMap innerEs]) ++ [PyObj.oSet fiv])
        s₃.size = .ok trv from by
      show (do readDTransEntries _ (← readMap _ _)) = _
      rw [show readMap ((s₃ ++ [PyObj.oMap innerEs]) ++ [PyObj.oSet fiv])
          s₃.size = .ok innerEs from by rw [readMap, G3]]
      simp only [Bind.bind, Except.bind]
      exact readDTransEntries_of_TblOK hTblOut]
    rw [show readSet ((s₃ ++ [PyObj.oMap innerEs]) ++ [PyObj.oSet fiv])
        (s₃ ++ [PyObj.oMap innerEs]).size = .ok fiv from by rw [readSet, G4]]
    rfl
  have hb1 : s₀.size < ((s₃ ++ [PyObj.oMap innerEs]) ++ [PyObj.oSet fiv]).size := by
    omega
  have hb2 : (s₀ ++ [PyObj.oSet stv]).size <
      ((s₃ ++ [PyObj.oMap innerEs]) ++ [PyObj.oSet fiv]).size := by
    rw [hsz1]; omega
  have hb3 : s₃.size < ((s₃ ++ [PyObj.oMap innerEs]) ++ [PyObj.oSet fiv]).size := by
    omega
  have hb4 : (s₃ ++ [PyObj.oMap innerEs]).size <
      ((s₃ ++ [PyObj.oMap innerEs]) ++ [PyObj.oSet fiv]).size := by
    rw [hsz4]; omega
  have G1' : sm.get? s₀.size = some (PyObj.oSet stv) :=
    (hag _ hb1 (Nat.le_refl _)).trans G1
  have G2' : sm.get? (s₀ ++ [PyObj.oSet stv]).size = some (PyObj.oSet syv) :=
    (hag _ hb2 (by rw [hsz1]; omega)).trans G2
  have G3' : sm.get? s₃.size = some (PyObj.oMap innerEs) :=
    (hag _ hb3 (by omega)).trans G3
  have G4' : sm.get? (s₃ ++ [PyObj.oMap innerEs]).size = some (PyObj.oSet fiv) :=
    (hag _ hb4 (by rw [hsz4]; omega)).trans G4
  have hReadSm : DFA.read_store sm
      ⟨s₀.size, (s₀ ++ [PyObj.oSet stv]).size, s₃.size, i,
        (s₃ ++ [PyObj.oMap innerEs]).size⟩ = .ok ⟨stv, syv, trv, i, fiv⟩ := by
    show (do
      let stv' ← readSet _ _
      let syv' ← readSet _ _
      let trv' ← readDTrans _ _
      let fiv' ← readSet _ _
      Except.ok (⟨stv', syv', trv', _, fiv'⟩ : DFA)) = _
    rw [show readSet sm s₀.size = .ok stv from by rw [readSet, G1']]
    rw [show readSet sm (s₀ ++ [PyObj.oSet stv]).size = .ok syv from by
      rw [readSet, G2']]
    rw [show readDTrans sm s₃.size = .ok trv from by
      show (do readDTransEntries _ (← readMap _ _)) = _
      rw [show readMap sm s₃.size = .ok innerEs from by rw [readMap, G3']]
      simp [Bind.bind, Except.bind, readDTransEntries_of_TblOK hTblSm]]
    rw [show readSet sm (s₃ ++ [PyObj.oMap innerEs]).size = .ok fiv from by
      rw [readSet, G4']]
    rfl
  refine ⟨hReadSm.trans hRead.symm, ⟨_, hRead⟩, ?_⟩
  intro w
  unfold DFA.validate_input_store
  rw [hRead, hReadSm]

theorem NFA.store_clone_construction_immutable
    (s₀ : Store) (a b c : Nat) (i : String) (f : Nat) (sOut : Store)
    (R : NFARefs) (sm : Store)
    (h : NFA.init_from_formal_params_store s₀ a b c i f = .ok (sOut, R))
    (hag : Agrees sOut sm s₀.size sOut.size) :
    NFA.read_store sm R = NFA.read_store sOut R ∧
    (∃ n, NFA.read_store sOut R = .ok n) ∧
    (∀ fuel w, NFA.validate_input_store sm R fuel w =
      NFA.validate_input_store sOut R fuel w) := by
  unfold NFA.init_from_formal_params_store at h
  cases h1 : readSet s₀ a with
  | error e => rw [h1] at h; simp [Bind.bind, Except.bind] at h
  | ok stv =>
  rw [h1] at h
  simp only [Bind.bind, Except.bind] at h
  cases h2 : readSet s₀ b with
  | error e => rw [h2] at h; simp at h
  | ok syv =>
  rw [h2] at h
  simp only at h
  cases h3 : readNTrans s₀ c with
  | error e => rw [h3] at h; simp at h
  | ok trv =>
  rw [h3] at h
  simp only at h
  cases h4 : readSet s₀ f with
  | error e => rw [h4] at h; simp at h
  | ok fiv =>
  rw [h4] at h
  simp only [alloc] at h
  rcases hA : allocNPaths ((s₀ ++ [PyObj.oSet stv]) ++ [PyObj.oSet syv]) trv
    with ⟨s₃, innerEs⟩
  rw [hA] at h
  simp only at h
  cases hv : NFA.validate_automaton ⟨stv, syv, trv, i, fiv⟩ with
  | error e => rw [hv] at h; simp at h
  | ok u =>
  rw [hv] at h
  simp only [Except.ok.injEq, Prod.mk.injEq] at h
  obtain ⟨hS, hR⟩ := h
  subst hS
  subst hR
  have hspec := allocNPaths_spec trv ((s₀ ++ [PyObj.oSet stv]) ++ [PyObj.oSet syv])
  rw [hA] at hspec
  dsimp only at hspec
  obtain ⟨⟨t, ht⟩, hTbl⟩ := hspec
  have hshape1 : ((s₃ ++ [PyObj.oMap innerEs]) ++ [PyObj.oSet fiv]) =
      s₀ ++ (PyObj.oSet stv :: (PyObj.oSet syv ::
        (t ++ (PyObj.oMap innerEs :: (PyObj.oSet fiv :: []))))) := by
    rw [ht]; simp
  have hshape2 : ((s₃ ++ [PyObj.oMap innerEs]) ++ [PyObj.oSet fiv]) =
      (s₀ ++ [PyObj.oSet stv]) ++ (PyObj.oSet syv ::
        (t ++ (PyObj.oMap innerEs :: (PyObj.oSet fiv :: [])))) := by
    rw [ht]; simp
  have hshape3 : ((s₃ ++ [PyObj.oMap innerEs]) ++ [PyObj.oSet fiv]) =
      s₃ ++ (PyObj.oMap innerEs :: (PyObj.oSet fiv :: [])) := by
    simp
  have hshape4 : ((s₃ ++ [PyObj.oMap innerEs]) ++ [PyObj.oSet fiv]) =
      (s₃ ++ [PyObj.oMap innerEs]) ++ (PyObj.oSet fiv :: []) := by
    simp
  have G1 : ((s₃ ++ [PyObj.oMap innerEs]) ++ [PyObj.oSet fiv]).get? s₀.size =
      some (PyObj.oSet stv) := by
    rw [hshape1]; exact store_get_at _ _ _
  have G2 : ((s₃ ++ [PyObj.oMap innerEs]) ++ [PyObj.oSet fiv]).get?
      (s₀ ++ [PyObj.oSet stv]).size = some (PyObj.oSet syv) := by
    rw [hshape2]; exact store_get_at _ _ _
  have G3 : ((s₃ ++ [PyObj.oMap innerEs]) ++ [PyObj.oSet fiv]).get? s₃.size =
      some (PyObj.oMap innerEs) := by
    rw [hshape3]; exact store_get_at _ _ _
  have G4 : ((s₃ ++ [PyObj.oMap innerEs]) ++ [PyObj.oSet fiv]).get?
      (s₃ ++ [PyObj.oMap innerEs]).size = some (PyObj.oSet fiv) := by
    rw [hshape4]; exact store_get_at _ _ _
  have hsz3 : s₃.size = s₀.size + 2 + t.length := by
    rw [ht]
    simp [Store.size]
    omega
  have hszOut : ((s₃ ++ [PyObj.oMap innerEs]) ++ [PyObj.oSet fiv]).size =
      s₃.size + 2 := by
    simp [Store.size]
  have hsz1 : (s₀ ++ [PyObj.oSet stv]).size = s₀.size + 1 := by
    simp [Store.size]
  have hsz4 : (s₃ ++ [PyObj.oMap innerEs]).size = s₃.size + 1 := by
    simp [Store.size]
  have hTblOut : NTransOK ((s₃ ++ [PyObj.oMap innerEs]) ++ [PyObj.oSet fiv])
      s₀.size ((s₃ ++ [PyObj.oMap innerEs]) ++ [PyObj.oSet fiv]).size
      innerEs trv := by
    have h1' : NTransOK (s₃ ++ (PyObj.oMap innerEs :: (PyObj.oSet fiv :: [])))
        ((s₀ ++ [PyObj.oSet stv]) ++ [PyObj.oSet syv]).size s₃.size
        innerEs trv := NTransOK_extend (Nat.le_refl _) hTbl
    rw [← hshape3] at h1'
    refine NTransOK_mono ?_ ?_ h1'
    · simp [Store.size]
    · omega
  have hTblSm : NTransOK sm s₀.size
      ((s₃ ++ [PyObj.oMap innerEs]) ++ [PyObj.oSet fiv]).size innerEs trv :=
    NTransOK_agrees hag hTblOut
  have hRead : NFA.read_store ((s₃ ++ [PyObj.oMap innerEs]) ++ [PyObj.oSet fiv])
      ⟨s₀.size, (s₀ ++ [PyObj.oSet stv]).size, s₃.size, i,
        (s₃ ++ [PyObj.oMap innerEs]).size⟩ = .ok ⟨stv, syv, trv, i, fiv⟩ := by
    show (do
      let stv' ← readSet _ _
      let syv' ← readSet _ _
      let trv' ← readNTrans _ _
      let fiv' ← readSet _ _
      Except.ok (⟨stv', syv', trv', _, fiv'⟩ : NFA)) = _
    rw [show readSet ((s₃ ++ [PyObj.oMap innerEs]) ++ [PyObj.oSet fiv])
        s₀.size = .ok stv from by rw [readSet, G1]]
    rw [show readSet ((s₃ ++ [PyObj.oMap innerEs]) ++ [PyObj.oSet fiv])
        (s₀ ++ [PyObj.oSet stv]).size = .ok syv from by rw [readSet, G2]]
    rw [show readNTrans ((s₃ ++ [PyObj.oMap innerEs]) ++ [PyObj.oSet fiv])
        s₃.size = .ok trv from by
      show (do readNTransEntries _ (← readMap _ _)) = _
      rw [show readMap ((s₃ ++ [PyObj.oMap innerEs]) ++ [PyObj.oSet fiv])
          s₃.size = .ok innerEs from by rw [readMap, G3]]
      simp only [Bind.bind, Except.bind]
      exact readNTransEntries_of_NTransOK hTblOut]
    rw [show readSet ((s₃ ++ [PyObj.oMap innerEs]) ++ [PyObj.oSet fiv])
        (s₃ ++ [PyObj.oMap innerEs]).size = .ok fiv from by rw [readSet, G4]]
    rfl
  have hb1 : s₀.size < ((s₃ ++ [PyObj.oMap innerEs]) ++ [PyObj.oSet fiv]).size := by
    omega
  have hb2 : (s₀ ++ [PyObj.oSet stv]).size <
      ((s₃ ++ [PyObj.oMap innerEs]) ++ [PyObj.oSet fiv]).size := by
    rw [hsz1]; omega
  have hb3 : s₃.size < ((s₃ ++ [PyObj.oMap innerEs]) ++ [PyObj.oSet fiv]).size := by
    omega
  have hb4 : (s₃ ++ [PyObj.oMap innerEs]).size <
      ((s₃ ++ [PyObj.oMap innerEs]) ++ [PyObj.oSet fiv]).size := by
    rw [hsz4]; omega
  have G1' : sm.get? s₀.size = some (PyObj.oSet stv) :=
    (hag _ hb1 (Nat.le_refl _)).trans G1
  have G2' : sm.get? (s₀ ++ [PyObj.oSet stv]).size = some (PyObj.oSet syv) :=
    (hag _ hb2 (by rw [hsz1]; omega)).trans G2
  have G3' : sm.get? s₃.size = some (PyObj.oMap innerEs) :=
    (hag _ hb3 (by omega)).trans G3
  have G4' : sm.get? (s₃ ++ [PyObj.oMap innerEs]).size = some (PyObj.oSet fiv) :=
    (hag _ hb4 (by rw [hsz4]; omega)).trans G4
  have hReadSm : NFA.read_store sm
      ⟨s₀.size, (s₀ ++ [PyObj.oSet stv]).size, s₃.size, i,
        (s₃ ++ [PyObj.oMap innerEs]).size⟩ = .ok ⟨stv, syv, trv, i, fiv⟩ := by
    show (do
      let stv' ← readSet _ _
      let syv' ← readSet _ _
      let trv' ← readNTrans _ _
      let fiv' ← readSet _ _
      Except.ok (⟨stv', syv', trv', _, fiv'⟩ : NFA)) = _
    rw [show readSet sm s₀.size = .ok stv from by rw [readSet, G1']]
    rw [show readSet sm (s₀ ++ [PyObj.oSet stv]).size = .ok syv from by
      rw [readSet, G2']]
    rw [show readNTrans sm s₃.size = .ok trv from by
      show (do readNTransEntries _ (← readMap _ _)) = _
      rw [show readMap sm s₃.size = .ok innerEs from by rw [readMap, G3']]
      simp only [Bind.bind, Except.bind]
      exact readNTransEntries_of_NTransOK hTblSm]
    rw [show readSet sm (s₃ ++ [PyObj.oMap innerEs]).size = .ok fiv from by
      rw [readSet, G4']]
    rfl
  refine ⟨hReadSm.trans hRead.symm, ⟨_, hRead⟩, ?_⟩
  intro fuel w
  unfold NFA.validate_input_store
  rw [hRead, hReadSm]

/-- C8: construction from formal parameters defensively copies every
caller-supplied collection — states, alphabet, the transition table with
its nested per-state tables and (for the NFA) destination sets, and the
final states.  Whatever the caller's mutation does to the store outside
the constructor's freshly allocated window, the constructed automaton's
fields read back unchanged and every subsequent acceptance test returns
the same result. -/
theorem construction_defensive_copy :
    (∀ (s₀ : Store) (a b c : Nat) (i : String) (f : Nat) (sOut : Store)
      (R : DFARefs) (sm : Store),
      DFA.init_from_formal_params_store s₀ a b c i f = .ok (sOut, R) →
      Agrees sOut sm s₀.size sOut.size →
      DFA.read_store sm R = DFA.read_store sOut R ∧
      (∃ d, DFA.read_store sOut R = .ok d) ∧
      (∀ w, DFA.validate_input_store sm R w =
        DFA.validate_input_store sOut R w)) ∧
    (∀ (s₀ : Store) (a b c : Nat) (i : String) (f : Nat) (sOut : Store)
      (R : NFARefs) (sm : Store),
      NFA.init_from_formal_params_store s₀ a b c i f = .ok (sOut, R) →
      Agrees sOut sm s₀.size sOut.size →
      NFA.read_store sm R = NFA.read_store sOut R ∧
      (∃ n, NFA.read_store sOut R = .ok n) ∧
      (∀ fuel w, NFA.validate_input_store sm R fuel w =
        NFA.validate_input_store sOut R fuel w)) :=
  ⟨fun s₀ a b c i f sOut R sm h hag =>
      DFA.store_construction_immutable s₀ a b c i f sOut R sm h hag,
    fun s₀ a b c i f sOut R sm h hag =>
      NFA.store_clone_construction_immutable s₀ a b c i f sOut R sm h hag⟩

/-- the caller's heap for a DFA construction: states at 0, symbols at 1,
two inner transition tables at 2 and 3, the transitions dict at 4, the
final states at 5. -/
def dfaCallerStore : Store :=
  [.oSet ["s1", "s2"], .oSet ["0", "1"],
    .oTbl [("0", "s1"), ("1", "s2")], .oTbl [("0", "s2"), ("1", "s1")],
    .oMap [("s1", 2), ("s2", 3)], .oSet ["s1"]]

/-- the heap after the DFA construction: fresh copies at 6..11. -/
def dfaOutStore : Store :=
  dfaCallerStore ++
    [.oSet ["s1", "s2"], .oSet ["0", "1"],
      .oTbl [("0", "s1"), ("1", "s2")], .oTbl [("0", "s2"), ("1", "s1")],
      .oMap [("s1", 8), ("s2", 9)], .oSet ["s1"]]

/-- the references the constructed DFA holds. -/
def dfaRefsW : DFARefs :=
  ⟨6, 7, 10, "s1", 11⟩

/-- the heap after the caller mutates its own states set and one of its
nested inner transition tables. -/
def dfaMutStore : Store :=
  [.oSet [], .oSet ["0", "1"],
    .oTbl [], .oTbl [("0", "s2"), ("1", "s1")],
    .oMap [("s1", 2), ("s2", 3)], .oSet ["s1", "s2"]] ++
    [.oSet ["s1", "s2"], .oSet ["0", "1"],
      .oTbl [("0", "s1"), ("1", "s2")], .oTbl [("0", "s2"), ("1", "s1")],
      .oMap [("s1", 8), ("s2", 9)], .oSet ["s1"]]

/-- the caller's heap for an NFA construction: nested destination sets at
2 and 4, inner dicts at 3 and 5, the transitions dict at 6. -/
def nfaCallerStore : Store :=
  [.oSet ["p", "q"], .oSet ["z"], .oSet ["q"], .oMap [("", 2)],
    .oSet ["q"], .oMap [("z", 4)], .oMap [("p", 3), ("q", 5)], .oSet ["q"]]

/-- the heap after the NFA construction: fresh copies at 8..15. -/
def nfaOutStore : Store :=
  nfaCallerStore ++
    [.oSet ["p", "q"], .oSet ["z"], .oSet ["q"], .oMap [("", 10)],
      .oSet ["q"], .oMap [("z", 12)], .oMap [("p", 11), ("q", 13)],
      .oSet ["q"]]

/-- the references the constructed NFA holds. -/
def nfaRefsW : NFARefs :=
  ⟨8, 9, 14, "p", 15⟩

/-- the heap after the caller mutates its own nested destination set and
its states set. -/
def nfaMutStore : Store :=
  [.oSet [], .oSet ["z"], .oSet ["p", "q", "x"], .oMap [("", 2)],
    .oSet ["q"], .oMap [("z", 4)], .oMap [("p", 3), ("q", 5)], .oSet []] ++
    [.oSet ["p", "q"], .oSet ["z"], .oSet ["q"], .oMap [("", 10)],
      .oSet ["q"], .oMap [("z", 12)], .oMap [("p", 11), ("q", 13)],
      .oSet ["q"]]

/-- C8 witness: the defensive-copy theorem applied to concrete heaps where
the caller mutates collections it passed in, nested ones included. -/
theorem construction_defensive_copy_witness :
    DFA.read_store dfaMutStore dfaRefsW = DFA.read_store dfaOutStore dfaRefsW ∧
    NFA.read_store nfaMutStore nfaRefsW = NFA.read_store nfaOutStore nfaRefsW :=
  ⟨(construction_defensive_copy.1 dfaCallerStore 0 1 4 "s1" 5 dfaOutStore
      dfaRefsW dfaMutStore (by decide) (by decide)).1,
    (construction_defensive_copy.2 nfaCallerStore 0 1 6 "p" 7 nfaOutStore
      nfaRefsW nfaMutStore (by decide) (by decide)).1⟩

end Automata
